import Mathlib

/-!
Verification of the confluent persistent hash-consed treap library
(src/set.h, src/map.h).

Embedding notes.

Nodes are interned (hash-consed): two live nodes under one provider are
structurally equal iff they are the same pointer (invariant I4 and the
intern table in set.h, lines 167-258 and 346-353).  We therefore model a
node pointer as the tree of values it points to, and C++ pointer
comparison of node pointers as structural (decidable) equality of trees.

The cached node fields always equal the values of their defining formulas
at creation time (set.h, lines 779-789): the field size_ equals
1 + size(left) + size(right), the field hash_ equals
hash_combine(hash(left), hash(right), priority), and the field priority_
equals intmix(hash(value)) for sets, resp. the priority of the co-created
key node for maps.  They are therefore modeled as the recursive functions
size, nodeHash, and as pr (key v), where pr is the priority function of
the provider.

A provider bundles the comparator, the hasher and the equality predicate.
The comparator is modeled by a LinearOrder on the key type, the equality
predicate by propositional equality, and the priority function
pr : alpha -> Nat is kept abstract, so every theorem holds for every
hasher.  Set nodes and map nodes share the treap machinery through a key
projection fn : beta -> alpha (identity for sets, Prod.fst for maps),
mirroring the traits-based template sharing of the source.
-/

set_option linter.unusedSectionVars false
set_option linter.unusedVariables false

namespace Confluent

/-- Machine word modulus: size_t is 64 bits wide; all size_t arithmetic
in the source wraps modulo W. -/
def W : Nat := 2 ^ 64

/-- Translation of hash_combine (set.h, lines 62-64):
h1 XOR (h2 + 0x9e3779b9 + (h1 shifted left 6) + (h1 shifted right 2)),
the additions performed in wrapping size_t arithmetic. -/
def hash_combine (h1 h2 : Nat) : Nat :=
  h1 ^^^ ((h2 + 0x9e3779b9 + (h1 <<< 6) + (h1 >>> 2)) % W)

/-- Translation of the three-argument hash_combine (set.h, lines 66-68):
left association. -/
def hash_combine3 (h1 h2 h3 : Nat) : Nat :=
  hash_combine (hash_combine h1 h2) h3

/-- Translation of the four-argument hash_combine (map.h, lines 36-38). -/
def hash_combine4 (h1 h2 h3 h4 : Nat) : Nat :=
  hash_combine (hash_combine h1 h2) (hash_combine h3 h4)

/-- Translation of the Thomas Wang 64-bit mix function intmix
(set.h, lines 51-60), in wrapping size_t arithmetic; the bitwise
complement of k is W - 1 - k for k below W. -/
def intmix64 (k : Nat) : Nat :=
  let m0 := k % W
  let m1 := ((W - 1 - m0) + (m0 <<< 21)) % W
  let m2 := m1 ^^^ (m1 >>> 24)
  let m3 := (m2 + (m2 <<< 3) + (m2 <<< 8)) % W
  let m4 := m3 ^^^ (m3 >>> 14)
  let m5 := (m4 + (m4 <<< 2) + (m4 <<< 4)) % W
  let m6 := m5 ^^^ (m5 >>> 28)
  (m6 + (m6 <<< 31)) % W

/-- Translation of enum ranking (set.h, line 282). -/
inductive Ranking where
  | LEFT
  | SAME
  | RIGHT
  | NOT_SAME
deriving DecidableEq

/-- A node pointer: either null or an interned node holding a value and
two child pointers (set.h, lines 758-804; map.h, lines 193-241).  The
derived fields priority_, size_ and hash_ are recomputed by functions
instead of being stored, and the key_node_ field of a map node is
recomputed by keyNodeOf, see the lemmas below. -/
inductive Tree (β : Type) where
  | nil : Tree β
  | node : β → Tree β → Tree β → Tree β
deriving DecidableEq

variable {α β : Type} [LinearOrder α] [DecidableEq β]

/-- Subtree node count: the size() accessor, computed as at node creation
(set.h, line 784): 1 + size(left) + size(right), size(null) = 0. -/
def size : Tree β → Nat
  | .nil => 0
  | .node _ l r => 1 + size l + size r

/-- In-order traversal of the values held in a subtree.  The iterator of
the containers enumerates exactly this sequence. -/
def elems : Tree β → List β
  | .nil => []
  | .node v l r => elems l ++ v :: elems r

variable (key : β → α) (pr : α → Nat)

/-- The keys of the values of a subtree, in traversal order. -/
def keysOf (t : Tree β) : List α :=
  (elems t).map key

/-- Strict lexicographic precedence on (priority, key): the order in
which rank (set.h, lines 373-386) decides LEFT.  The treap root of a
canonical tree is the kprec-least key of the tree. -/
def kprec (a b : α) : Prop :=
  pr a < pr b ∨ (pr a = pr b ∧ a < b)

/-- Translation of internal::rank (set.h, lines 373-386): compare
priorities, break ties by the provider comparator on keys.  Set and map
nodes store priorities that are a function of the key alone, so the model
passes priorities as pr of the key. -/
def rank (x y : β) : Ranking :=
  if pr (key x) < pr (key y) then .LEFT
  else if pr (key y) < pr (key x) then .RIGHT
  else if key x < key y then .LEFT
  else if key y < key x then .RIGHT
  else .SAME

/-- Translation of replace_left (set.h, lines 388-395).  The null case is
never reached by the source (the parent is dereferenced).  The
short-circuit branch returns the parent itself, which is structurally
equal to the rebuilt node, see replace_left_node. -/
def replace_left : Tree β → Tree β → Tree β
  | .nil, _ => .nil
  | .node v l r, c => if l = c then .node v l r else .node v c r

/-- Translation of replace_right (set.h, lines 397-404). -/
def replace_right : Tree β → Tree β → Tree β
  | .nil, _ => .nil
  | .node v l r, c => if r = c then .node v l r else .node v l c

@[simp] theorem replace_left_node (v : β) (l r c : Tree β) :
    replace_left (.node v l r) c = .node v c r := by
  simp only [replace_left]
  split
  · next h => rw [h]
  · rfl

@[simp] theorem replace_right_node (v : β) (l r c : Tree β) :
    replace_right (.node v l r) c = .node v l c := by
  simp only [replace_right]
  split
  · next h => rw [h]
  · rfl

/-- Translation of internal::join (set.h, lines 406-425).  The defaulted
branch is unreachable under the precondition of join (keys never compare
equal on the seam, asserted in the source). -/
def join : Tree β → Tree β → Tree β
  | .nil, r => r
  | l, .nil => l
  | .node lv ll lr, .node rv rl rr =>
    match rank key pr lv rv with
    | .LEFT => replace_right (.node lv ll lr) (join lr (.node rv rl rr))
    | .RIGHT => replace_left (.node rv rl rr) (join (.node lv ll lr) rl)
    | _ => .nil
termination_by l r => size l + size r
decreasing_by
  all_goals (simp only [size]; omega)

/-- Translation of internal::split (set.h, lines 427-443). -/
def split : Tree β → α → Tree β × Tree β
  | .nil, _ => (.nil, .nil)
  | .node v l r, k =>
    if key v < k then
      let s := split r k
      (replace_right (.node v l r) s.1, s.2)
    else
      let s := split l k
      (s.1, replace_left (.node v l r) s.2)

theorem split_size (t : Tree β) (k : α) :
    size (split key t k).1 + size (split key t k).2 = size t := by
  induction t with
  | nil => simp [split, size]
  | node v l r ihl ihr =>
    simp only [split]
    by_cases h : key v < k
    · simp only [if_pos h, replace_right_node, size]
      omega
    · simp only [if_neg h, replace_left_node, size]
      omega

/-- Translation of internal::set_union (set.h, lines 445-469).  The
identity short-circuit (left == right) is pointer equality in the source,
hence structural equality here; the null tests match the source order. -/
def set_union : Tree β → Tree β → Tree β
  | .nil, r => r
  | l, .nil => l
  | .node lv ll lr, .node rv rl rr =>
    if Tree.node lv ll lr = Tree.node rv rl rr then Tree.node lv ll lr
    else
      match rank key pr lv rv with
      | .LEFT =>
        let s := split key (Tree.node rv rl rr) (key lv)
        Tree.node lv (set_union ll s.1) (set_union lr s.2)
      | .RIGHT =>
        let s := split key (Tree.node lv ll lr) (key rv)
        Tree.node rv (set_union s.1 rl) (set_union s.2 rr)
      | _ =>
        Tree.node lv (set_union ll rl) (set_union lr rr)
termination_by l r => size l + size r
decreasing_by
  all_goals
    first
    | (have h := split_size key (Tree.node rv rl rr) (key lv)
       simp only [size] at *; omega)
    | (have h := split_size key (Tree.node lv ll lr) (key rv)
       simp only [size] at *; omega)
    | (simp only [size]; omega)

/-- Translation of internal::set_intersection (set.h, lines 471-503),
parameterized by the ranker exactly as the source template is; set
operations pass internal::rank. -/
def set_intersection (ranker : β → β → Ranking) : Tree β → Tree β → Tree β
  | .nil, _ => .nil
  | _, .nil => .nil
  | .node lv ll lr, .node rv rl rr =>
    if Tree.node lv ll lr = Tree.node rv rl rr then Tree.node lv ll lr
    else
      match ranker lv rv with
      | .LEFT =>
        let s := split key (Tree.node rv rl rr) (key lv)
        join key pr (set_intersection ranker ll s.1)
          (set_intersection ranker lr s.2)
      | .RIGHT =>
        let s := split key (Tree.node lv ll lr) (key rv)
        join key pr (set_intersection ranker s.1 rl)
          (set_intersection ranker s.2 rr)
      | .NOT_SAME =>
        join key pr (set_intersection ranker ll rl)
          (set_intersection ranker lr rr)
      | .SAME =>
        Tree.node lv (set_intersection ranker ll rl)
          (set_intersection ranker lr rr)
termination_by l r => size l + size r
decreasing_by
  all_goals
    first
    | (have h := split_size key (Tree.node rv rl rr) (key lv)
       simp only [size] at *; omega)
    | (have h := split_size key (Tree.node lv ll lr) (key rv)
       simp only [size] at *; omega)
    | (simp only [size]; omega)

/-- Translation of internal::set_difference (set.h, lines 505-538). -/
def set_difference (ranker : β → β → Ranking) : Tree β → Tree β → Tree β
  | .nil, _ => .nil
  | l, .nil => l
  | .node lv ll lr, .node rv rl rr =>
    if Tree.node lv ll lr = Tree.node rv rl rr then .nil
    else
      match ranker lv rv with
      | .LEFT =>
        let s := split key (Tree.node rv rl rr) (key lv)
        Tree.node lv (set_difference ranker ll s.1)
          (set_difference ranker lr s.2)
      | .RIGHT =>
        let s := split key (Tree.node lv ll lr) (key rv)
        join key pr (set_difference ranker s.1 rl)
          (set_difference ranker s.2 rr)
      | .NOT_SAME =>
        Tree.node lv (set_difference ranker ll rl)
          (set_difference ranker lr rr)
      | .SAME =>
        join key pr (set_difference ranker ll rl)
          (set_difference ranker lr rr)
termination_by l r => size l + size r
decreasing_by
  all_goals
    first
    | (have h := split_size key (Tree.node rv rl rr) (key lv)
       simp only [size] at *; omega)
    | (have h := split_size key (Tree.node lv ll lr) (key rv)
       simp only [size] at *; omega)
    | (simp only [size]; omega)

/-- Translation of internal::set_symmetric (set.h, lines 540-568). -/
def set_symmetric : Tree β → Tree β → Tree β
  | .nil, r => r
  | l, .nil => l
  | .node lv ll lr, .node rv rl rr =>
    if Tree.node lv ll lr = Tree.node rv rl rr then .nil
    else
      match rank key pr lv rv with
      | .LEFT =>
        let s := split key (Tree.node rv rl rr) (key lv)
        Tree.node lv (set_symmetric ll s.1) (set_symmetric lr s.2)
      | .RIGHT =>
        let s := split key (Tree.node lv ll lr) (key rv)
        Tree.node rv (set_symmetric s.1 rl) (set_symmetric s.2 rr)
      | _ =>
        join key pr (set_symmetric ll rl) (set_symmetric lr rr)
termination_by l r => size l + size r
decreasing_by
  all_goals
    first
    | (have h := split_size key (Tree.node rv rl rr) (key lv)
       simp only [size] at *; omega)
    | (have h := split_size key (Tree.node lv ll lr) (key rv)
       simp only [size] at *; omega)
    | (simp only [size]; omega)

/-- Translation of internal::includes (set.h, lines 570-592).  The
second equation is the size short-circuit applied to a null left with
nonnull right: there size(left) = 0 is smaller than size(right), so the
source returns false before dereferencing left. -/
def includesT (ranker : β → β → Ranking) : Tree β → Tree β → Bool
  | _, .nil => true
  | .nil, .node _ _ _ => false
  | .node lv ll lr, .node rv rl rr =>
    if Tree.node lv ll lr = Tree.node rv rl rr then true
    else if size (Tree.node lv ll lr) < size (Tree.node rv rl rr) then false
    else
      match ranker lv rv with
      | .LEFT =>
        let s := split key (Tree.node rv rl rr) (key lv)
        includesT ranker ll s.1 && includesT ranker lr s.2
      | .SAME => includesT ranker ll rl && includesT ranker lr rr
      | _ => false
termination_by l r => size l + size r
decreasing_by
  all_goals
    first
    | (have h := split_size key (Tree.node rv rl rr) (key lv)
       simp only [size] at *; omega)
    | (simp only [size]; omega)

/-- Translation of the key-erase helper (set.h, lines 680-698), returning
the rebuilt subtree and the bool flag that stops the search.  The
equality test env.equal(value, key) is key v = k in the model. -/
def eraseP : Tree β → α → Tree β × Bool
  | .nil, _ => (.nil, false)
  | .node v l r, k =>
    if key v < k then
      let s := eraseP r k
      if s.2 then (replace_right (.node v l r) s.1, true)
      else (.node v l r, false)
    else
      let s := eraseP l k
      if s.2 then (replace_left (.node v l r) s.1, true)
      else if key v = k then (join key pr l r, true)
      else (.node v l r, true)

/-- Translation of internal::tail (set.h, lines 725-734): the while loop
becomes the first recursive branch, the trailing conditional the two
others.  A null pointer with nonzero first is undefined in the source
(null dereference); the model returns nil there. -/
def tailT : Tree β → Nat → Tree β
  | .nil, _ => .nil
  | .node v l r, first =>
    if size l < first then tailT r (first - size l - 1)
    else if first = 0 then .node v l r
    else replace_left (.node v l r) (tailT l first)

/-- Translation of internal::head (set.h, lines 736-747): the while loop
becomes the first recursive branch. -/
def headT : Tree β → Nat → Tree β
  | .nil, _ => .nil
  | .node v l r, last =>
    if last ≤ size l then headT l last
    else if last = size (Tree.node v l r) then Tree.node v l r
    else replace_right (.node v l r) (headT r (last - size l - 1))

/-- Translation of the bulk builder make_node over an iterator range
(set.h, lines 594-610).  The source advances a shared iterator through
the range and repeatedly unions a deeper branch into the running root,
for depth = 0, 1, ... below max_depth, stopping early when the range is
exhausted.  Unrolling the loop over the last iteration gives this
recursion on max_depth: the run of depths up to d, followed (if input
remains) by one branch of depth d.  The pair returns the built tree and
the unconsumed remainder of the input. -/
def buildAux : Nat → List β → Tree β × List β
  | _, [] => (.nil, [])
  | 0, x :: xs => (.node x .nil .nil, xs)
  | d + 1, x :: xs =>
    let s := buildAux d (x :: xs)
    match s.2 with
    | [] => (s.1, [])
    | y :: ys =>
      let b := buildAux d (y :: ys)
      (set_union key pr s.1 b.1, b.2)

/-- Translation of the range entry point make_node(env, first, last)
(set.h, lines 612-618), which runs the loop with max_depth equal to
SIZE_MAX.  The loop stops as soon as the input is exhausted, which
happens before depth reaches the length of the input (the branch of
depth d consumes up to 2 to the d elements), so a depth budget equal to
the input length is equivalent to SIZE_MAX for every input the source
can receive. -/
def buildT (l : List β) : Tree β :=
  (buildAux key pr l.length l).1

/-- Translation of internal::lower_bound (set.h, lines 320-336): the
running best is the last node at which the comparer said to go left.
The source also returns the position of the best node; map::at uses only
the node, which is what the model returns. -/
def lowerB (p : β → Bool) : Tree β → Option β
  | .nil => none
  | .node v l r => if p v then lowerB p r else some ((lowerB p l).getD v)

@[simp] theorem elems_nil : elems (Tree.nil : Tree β) = [] := rfl

@[simp] theorem elems_node (v : β) (l r : Tree β) :
    elems (Tree.node v l r) = elems l ++ v :: elems r := rfl

@[simp] theorem size_nil : size (Tree.nil : Tree β) = 0 := rfl

@[simp] theorem size_node (v : β) (l r : Tree β) :
    size (Tree.node v l r) = 1 + size l + size r := rfl

theorem size_eq_length (t : Tree β) : size t = (elems t).length := by
  induction t with
  | nil => rfl
  | node v l r ihl ihr => simp [ihl, ihr]; omega

theorem elems_eq_nil_iff (t : Tree β) : elems t = [] ↔ t = .nil := by
  cases t <;> simp

/-- Invariant I1 at every node: left values have keys below the node key,
right values above, recursively. -/
def BST : Tree β → Prop
  | .nil => True
  | .node v l r =>
    (∀ x ∈ elems l, key x < key v) ∧ (∀ x ∈ elems r, key v < key x) ∧
    BST l ∧ BST r

/-- Invariant I2 in its transitive form: the key of every node strictly
kprec-precedes the keys of all values in both subtrees.  Since kprec is
transitive, this is equivalent to the per-edge min-heap property with
key tie-breaking maintained by join and the merge algorithms. -/
def Heap : Tree β → Prop
  | .nil => True
  | .node v l r =>
    (∀ x ∈ elems l, kprec pr (key v) (key x)) ∧
    (∀ x ∈ elems r, kprec pr (key v) (key x)) ∧
    Heap l ∧ Heap r

/-- The shape invariant of every interned tree: search order on keys and
min-heap order on (priority, key). -/
def Valid (t : Tree β) : Prop :=
  BST key t ∧ Heap key pr t

@[simp] theorem BST_nil : BST key (Tree.nil : Tree β) := trivial

@[simp] theorem BST_node (v : β) (l r : Tree β) :
    BST key (Tree.node v l r) ↔
      (∀ x ∈ elems l, key x < key v) ∧ (∀ x ∈ elems r, key v < key x) ∧
      BST key l ∧ BST key r := Iff.rfl

@[simp] theorem Heap_nil : Heap key pr (Tree.nil : Tree β) := trivial

@[simp] theorem Heap_node (v : β) (l r : Tree β) :
    Heap key pr (Tree.node v l r) ↔
      (∀ x ∈ elems l, kprec pr (key v) (key x)) ∧
      (∀ x ∈ elems r, kprec pr (key v) (key x)) ∧
      Heap key pr l ∧ Heap key pr r := Iff.rfl

@[simp] theorem valid_nil : Valid key pr (Tree.nil : Tree β) :=
  ⟨trivial, trivial⟩

theorem valid_node_iff (v : β) (l r : Tree β) :
    Valid key pr (Tree.node v l r) ↔
      Valid key pr l ∧ Valid key pr r ∧
      (∀ x ∈ elems l, key x < key v) ∧ (∀ x ∈ elems r, key v < key x) ∧
      (∀ x ∈ elems l, kprec pr (key v) (key x)) ∧
      (∀ x ∈ elems r, kprec pr (key v) (key x)) := by
  unfold Valid
  simp only [BST_node, Heap_node]
  tauto

theorem kprec_trans {a b c : α} (h1 : kprec pr a b) (h2 : kprec pr b c) :
    kprec pr a c := by
  unfold kprec at *
  rcases h1 with h1 | ⟨e1, l1⟩ <;> rcases h2 with h2 | ⟨e2, l2⟩
  · exact Or.inl (h1.trans h2)
  · exact Or.inl (by omega)
  · exact Or.inl (by omega)
  · exact Or.inr ⟨by omega, l1.trans l2⟩

theorem kprec_irrefl (a : α) : ¬ kprec pr a a := by
  unfold kprec
  rintro (h | ⟨_, h⟩)
  · omega
  · exact absurd h (lt_irrefl a)

theorem kprec_asymm {a b : α} (h1 : kprec pr a b) : ¬ kprec pr b a :=
  fun h2 => kprec_irrefl pr a (kprec_trans pr h1 h2)

theorem kprec_ne {a b : α} (h : kprec pr a b) : a ≠ b := by
  rintro rfl
  exact kprec_irrefl pr a h

theorem kprec_total {a b : α} (h : a ≠ b) :
    kprec pr a b ∨ kprec pr b a := by
  unfold kprec
  rcases lt_trichotomy (pr a) (pr b) with hp | hp | hp
  · exact Or.inl (Or.inl hp)
  · rcases lt_trichotomy a b with hk | hk | hk
    · exact Or.inl (Or.inr ⟨hp, hk⟩)
    · exact absurd hk h
    · exact Or.inr (Or.inr ⟨hp.symm, hk⟩)
  · exact Or.inr (Or.inl hp)

theorem rank_eq_left_iff (x y : β) :
    rank key pr x y = Ranking.LEFT ↔ kprec pr (key x) (key y) := by
  unfold rank kprec
  split_ifs with h1 h2 h3 h4
  · exact iff_of_true rfl (Or.inl h1)
  · refine iff_of_false (by simp) ?_
    rintro (h | ⟨e, _⟩) <;> omega
  · exact iff_of_true rfl (Or.inr ⟨by omega, h3⟩)
  · refine iff_of_false (by simp) ?_
    rintro (h | ⟨_, h⟩)
    · omega
    · exact absurd h (asymm h4)
  · refine iff_of_false (by simp) ?_
    rintro (h | ⟨_, h⟩)
    · omega
    · exact absurd h h3

theorem rank_eq_right_iff (x y : β) :
    rank key pr x y = Ranking.RIGHT ↔ kprec pr (key y) (key x) := by
  unfold rank kprec
  split_ifs with h1 h2 h3 h4
  · refine iff_of_false (by simp) ?_
    rintro (h | ⟨e, _⟩) <;> omega
  · exact iff_of_true rfl (Or.inl h2)
  · refine iff_of_false (by simp) ?_
    rintro (h | ⟨_, h⟩)
    · omega
    · exact absurd h (asymm h3)
  · exact iff_of_true rfl (Or.inr ⟨by omega, h4⟩)
  · refine iff_of_false (by simp) ?_
    rintro (h | ⟨_, h⟩)
    · omega
    · exact absurd h h4

theorem rank_eq_same_iff (x y : β) :
    rank key pr x y = Ranking.SAME ↔ key x = key y := by
  unfold rank
  split_ifs with h1 h2 h3 h4 <;> simp
  · exact fun e => absurd (e ▸ h1) (lt_irrefl _)
  · exact fun e => absurd (e ▸ h2) (lt_irrefl _)
  · exact ne_of_lt h3
  · exact (ne_of_lt h4).symm
  · exact le_antisymm (not_lt.1 h4) (not_lt.1 h3)

theorem rank_ne_notsame (x y : β) :
    rank key pr x y ≠ Ranking.NOT_SAME := by
  unfold rank
  split_ifs <;> simp

theorem mem_keysOf {t : Tree β} {k : α} :
    k ∈ keysOf key t ↔ ∃ x ∈ elems t, key x = k := by
  simp [keysOf]

theorem root_min {v : β} {l r : Tree β}
    (hv : Valid key pr (Tree.node v l r)) {x : β}
    (hx : x ∈ elems (Tree.node v l r)) :
    x = v ∨ kprec pr (key v) (key x) := by
  rcases (valid_node_iff key pr v l r).1 hv with ⟨_, _, _, _, hpl, hpr⟩
  simp only [elems_node, List.mem_append, List.mem_cons] at hx
  rcases hx with hx | rfl | hx
  · exact Or.inr (hpl x hx)
  · exact Or.inl rfl
  · exact Or.inr (hpr x hx)

theorem root_key_min {v : β} {l r : Tree β}
    (hv : Valid key pr (Tree.node v l r)) {k : α}
    (hk : k ∈ keysOf key (Tree.node v l r)) :
    k = key v ∨ kprec pr (key v) k := by
  rcases mem_keysOf key |>.1 hk with ⟨x, hx, rfl⟩
  rcases root_min key pr hv hx with rfl | h
  · exact Or.inl rfl
  · exact Or.inr h

theorem not_mem_keys_of_kprec_root {v : β} {l r : Tree β}
    (hv : Valid key pr (Tree.node v l r)) {k : α}
    (hk : kprec pr k (key v)) :
    k ∉ keysOf key (Tree.node v l r) := by
  intro hmem
  rcases root_key_min key pr hv hmem with rfl | h
  · exact kprec_irrefl pr _ hk
  · exact kprec_asymm pr h hk

theorem bst_pairwise {t : Tree β} (hb : BST key t) :
    List.Pairwise (fun x y => key x < key y) (elems t) := by
  induction t with
  | nil => simp
  | node v l r ihl ihr =>
    rcases hb with ⟨hl, hr, bl, br⟩
    simp only [elems_node]
    rw [List.pairwise_append]
    refine ⟨ihl bl, ?_, ?_⟩
    · rw [List.pairwise_cons]
      exact ⟨hr, ihr br⟩
    · intro x hx y hy
      rcases List.mem_cons.1 hy with rfl | hy
      · exact hl x hx
      · exact (hl x hx).trans (hr y hy)

theorem elems_nodup {t : Tree β} (hb : BST key t) : (elems t).Nodup :=
  (bst_pairwise key hb).imp fun h => ne_of_apply_ne key (ne_of_lt h)

theorem keys_pairwise {t : Tree β} (hb : BST key t) :
    List.Pairwise (· < ·) (keysOf key t) := by
  unfold keysOf
  exact (List.pairwise_map).2 (bst_pairwise key hb)

theorem keys_nodup {t : Tree β} (hb : BST key t) : (keysOf key t).Nodup :=
  (keys_pairwise key hb).imp ne_of_lt

theorem bst_key_inj {t : Tree β} (hb : BST key t) :
    ∀ x ∈ elems t, ∀ y ∈ elems t, key x = key y → x = y := by
  induction t with
  | nil => simp
  | node v l r ihl ihr =>
    rcases hb with ⟨hl, hr, bl, br⟩
    intro x hx y hy hxy
    simp only [elems_node, List.mem_append, List.mem_cons] at hx hy
    rcases hx with hx | rfl | hx <;> rcases hy with hy | rfl | hy
    · exact ihl bl x hx y hy hxy
    · exact absurd hxy (ne_of_lt (hl x hx))
    · exact absurd hxy (ne_of_lt ((hl x hx).trans (hr y hy)))
    · exact absurd hxy.symm (ne_of_lt (hl y hy))
    · rfl
    · exact absurd hxy (ne_of_lt (hr y hy))
    · exact absurd hxy.symm (ne_of_lt ((hl y hy).trans (hr x hx)))
    · exact absurd hxy.symm (ne_of_lt (hr x hx))
    · exact ihr br x hx y hy hxy

/-- Canonical-form theorem: a tree satisfying the search invariant I1 and
the heap invariant I2 is uniquely determined by the set of values it
holds.  The root must be the value whose key is kprec-least; the keys of
a tree are pairwise distinct, so that value is unique, and the subtrees
are determined recursively. -/
theorem valid_ext : ∀ a b : Tree β, Valid key pr a → Valid key pr b →
    (∀ x, x ∈ elems a ↔ x ∈ elems b) → a = b := by
  intro a
  induction a with
  | nil =>
    intro b _ _ hm
    cases b with
    | nil => rfl
    | node w bl br =>
      exact absurd ((hm w).2 (by simp)) (by simp)
  | node v l r ihl ihr =>
    intro b hva hvb hm
    cases b with
    | nil => exact absurd ((hm v).1 (by simp)) (by simp)
    | node w bl br =>
      have hv : v ∈ elems (Tree.node w bl br) := (hm v).1 (by simp)
      have hw : w ∈ elems (Tree.node v l r) := (hm w).2 (by simp)
      have hroot : v = w := by
        rcases root_min key pr hvb hv with rfl | h1
        · rfl
        rcases root_min key pr hva hw with h2 | h2
        · exact h2.symm
        · exact absurd h1 (kprec_asymm pr h2)
      subst hroot
      rcases (valid_node_iff key pr v l r).1 hva with
        ⟨hvl, hvr, hal, har, _, _⟩
      rcases (valid_node_iff key pr v bl br).1 hvb with
        ⟨hvbl, hvbr, hbl, hbr, _, _⟩
      have hml : ∀ x, x ∈ elems l ↔ x ∈ elems bl := by
        intro x
        constructor
        · intro hx
          have hklt : key x < key v := hal x hx
          have hx1 := (hm x).1 (by simp [hx])
          simp only [elems_node, List.mem_append, List.mem_cons] at hx1
          rcases hx1 with hx1 | rfl | hx1
          · exact hx1
          · exact absurd hklt (lt_irrefl _)
          · exact absurd hklt (asymm (hbr x hx1))
        · intro hx
          have hklt : key x < key v := hbl x hx
          have hx1 := (hm x).2 (by simp [hx])
          simp only [elems_node, List.mem_append, List.mem_cons] at hx1
          rcases hx1 with hx1 | rfl | hx1
          · exact hx1
          · exact absurd hklt (lt_irrefl _)
          · exact absurd hklt (asymm (har x hx1))
      have hmr : ∀ x, x ∈ elems r ↔ x ∈ elems br := by
        intro x
        constructor
        · intro hx
          have hkgt : key v < key x := har x hx
          have hx1 := (hm x).1 (by simp [hx])
          simp only [elems_node, List.mem_append, List.mem_cons] at hx1
          rcases hx1 with hx1 | rfl | hx1
          · exact absurd hkgt (asymm (hbl x hx1))
          · exact absurd hkgt (lt_irrefl _)
          · exact hx1
        · intro hx
          have hkgt : key v < key x := hbr x hx
          have hx1 := (hm x).2 (by simp [hx])
          simp only [elems_node, List.mem_append, List.mem_cons] at hx1
          rcases hx1 with hx1 | rfl | hx1
          · exact absurd hkgt (asymm (hal x hx1))
          · exact absurd hkgt (lt_irrefl _)
          · exact hx1
      rw [ihl bl hvl hvbl hml, ihr br hvr hvbr hmr]

/-- Specification of split: on a canonical tree it returns two canonical
trees partitioning the traversal at the given key. -/
theorem split_spec {t : Tree β} (k : α) (hv : Valid key pr t) :
    Valid key pr (split key t k).1 ∧ Valid key pr (split key t k).2 ∧
    elems t = elems (split key t k).1 ++ elems (split key t k).2 ∧
    (∀ x ∈ elems (split key t k).1, key x < k) ∧
    (∀ x ∈ elems (split key t k).2, ¬ key x < k) := by
  induction t with
  | nil => simp [split]
  | node v l r ihl ihr =>
    rcases (valid_node_iff key pr v l r).1 hv with
      ⟨hvl, hvr, hal, har, hpl, hpr⟩
    by_cases h : key v < k
    · obtain ⟨v1, v2, he, b1, b2⟩ := ihr hvr
      have hsub : ∀ x ∈ elems (split key r k).1, x ∈ elems r := by
        intro x hx
        rw [he]
        exact List.mem_append_left _ hx
      simp only [split, if_pos h, replace_right_node]
      refine ⟨?_, v2, ?_, ?_, b2⟩
      · rw [valid_node_iff]
        exact ⟨hvl, v1, hal, fun x hx => har x (hsub x hx), hpl,
          fun x hx => hpr x (hsub x hx)⟩
      · simp only [elems_node, he, List.append_assoc, List.cons_append]
      · intro x hx
        simp only [elems_node, List.mem_append, List.mem_cons] at hx
        rcases hx with hx | rfl | hx
        · exact (hal x hx).trans h
        · exact h
        · exact b1 x hx
    · obtain ⟨v1, v2, he, b1, b2⟩ := ihl hvl
      have hsub : ∀ x ∈ elems (split key l k).2, x ∈ elems l := by
        intro x hx
        rw [he]
        exact List.mem_append_right _ hx
      simp only [split, if_neg h, replace_left_node]
      refine ⟨v1, ?_, ?_, b1, ?_⟩
      · rw [valid_node_iff]
        exact ⟨v2, hvr, fun x hx => hal x (hsub x hx), har,
          fun x hx => hpl x (hsub x hx), hpr⟩
      · simp only [elems_node, he, List.append_assoc, List.cons_append]
      · intro x hx
        simp only [elems_node, List.mem_append, List.mem_cons] at hx
        rcases hx with hx | rfl | hx
        · exact b2 x hx
        · exact h
        · exact fun hc =>
            absurd ((not_lt.1 h).trans_lt (har x hx)) (not_lt.2 (le_of_lt hc))

@[simp] theorem keysOf_nil : keysOf key (Tree.nil : Tree β) = [] := rfl

@[simp] theorem keysOf_node (v : β) (l r : Tree β) :
    keysOf key (Tree.node v l r) =
      keysOf key l ++ key v :: keysOf key r := by
  simp [keysOf]

theorem mem_keys_of_mem {t : Tree β} {x : β} (hx : x ∈ elems t) :
    key x ∈ keysOf key t :=
  List.mem_map_of_mem key hx

/-- Specification of join: under the seam precondition it is a canonical
tree concatenating the traversals. -/
theorem join_spec : ∀ l r : Tree β, Valid key pr l → Valid key pr r →
    (∀ x ∈ elems l, ∀ y ∈ elems r, key x < key y) →
    Valid key pr (join key pr l r) ∧
    elems (join key pr l r) = elems l ++ elems r := by
  intro l r
  induction l, r using join.induct key pr with
  | case1 r =>
    intro _ hv _
    simpa [join] using hv
  | case2 l hne =>
    intro hv _ _
    cases l with
    | nil => exact (hne rfl).elim
    | node v a b => simpa [join] using hv
  | case3 lv ll lr rv rl rr hrank ih =>
    intro hvl hvr hsep
    have hgoal : join key pr (Tree.node lv ll lr) (Tree.node rv rl rr) =
        Tree.node lv ll (join key pr lr (Tree.node rv rl rr)) := by
      rw [join, hrank]
      simp
    obtain ⟨hvll, hvlr, hal, har, hpl, hpr⟩ :=
      (valid_node_iff key pr lv ll lr).1 hvl
    have hsep2 : ∀ x ∈ elems lr, ∀ y ∈ elems (Tree.node rv rl rr),
        key x < key y := by
      intro x hx y hy
      exact hsep x (by simp [hx]) y hy
    obtain ⟨hvj, hej⟩ := ih hvlr hvr hsep2
    have hklv := (rank_eq_left_iff key pr lv rv).1 hrank
    have hdom : ∀ x ∈ elems (Tree.node rv rl rr),
        kprec pr (key lv) (key x) := by
      intro x hx
      rcases root_min key pr hvr hx with rfl | h
      · exact hklv
      · exact kprec_trans pr hklv h
    rw [hgoal]
    constructor
    · rw [valid_node_iff]
      refine ⟨hvll, hvj, hal, ?_, hpl, ?_⟩
      · intro x hx
        rw [hej] at hx
        rcases List.mem_append.1 hx with h | h
        · exact har x h
        · exact hsep lv (by simp) x h
      · intro x hx
        rw [hej] at hx
        rcases List.mem_append.1 hx with h | h
        · exact hpr x h
        · exact hdom x h
    · simp [hej]
  | case4 lv ll lr rv rl rr hrank ih =>
    intro hvl hvr hsep
    have hgoal : join key pr (Tree.node lv ll lr) (Tree.node rv rl rr) =
        Tree.node rv (join key pr (Tree.node lv ll lr) rl) rr := by
      rw [join, hrank]
      simp
    obtain ⟨hvrl, hvrr, hbl, hbr, hql, hqr⟩ :=
      (valid_node_iff key pr rv rl rr).1 hvr
    have hsep2 : ∀ x ∈ elems (Tree.node lv ll lr), ∀ y ∈ elems rl,
        key x < key y := by
      intro x hx y hy
      exact hsep x hx y (by simp [hy])
    obtain ⟨hvj, hej⟩ := ih hvl hvrl hsep2
    have hkrv := (rank_eq_right_iff key pr lv rv).1 hrank
    have hdom : ∀ x ∈ elems (Tree.node lv ll lr),
        kprec pr (key rv) (key x) := by
      intro x hx
      rcases root_min key pr hvl hx with rfl | h
      · exact hkrv
      · exact kprec_trans pr hkrv h
    rw [hgoal]
    constructor
    · rw [valid_node_iff]
      refine ⟨hvj, hvrr, ?_, hbr, ?_, hqr⟩
      · intro x hx
        rw [hej] at hx
        rcases List.mem_append.1 hx with h | h
        · exact hsep x h rv (by simp)
        · exact hbl x h
      · intro x hx
        rw [hej] at hx
        rcases List.mem_append.1 hx with h | h
        · exact hdom x h
        · exact hql x h
    · simp [hej]
  | case5 lv ll lr rv rl rr h1 h2 =>
    intro hvl hvr hsep
    exfalso
    have hlt : key lv < key rv := hsep lv (by simp) rv (by simp)
    rcases kprec_total pr (ne_of_lt hlt) with hk | hk
    · exact h1 ((rank_eq_left_iff key pr lv rv).2 hk)
    · exact h2 ((rank_eq_right_iff key pr lv rv).2 hk)

/-- Specification of set_union: the result is canonical and holds a value
iff the left input holds it, or the right input holds it and no value
with the same key is in the left input (on a key collision the merge
keeps the value of the left argument, see the SAME branch of the
source). -/
theorem union_spec : ∀ a b : Tree β, Valid key pr a → Valid key pr b →
    Valid key pr (set_union key pr a b) ∧
    ∀ x, x ∈ elems (set_union key pr a b) ↔
      x ∈ elems a ∨ (x ∈ elems b ∧ key x ∉ keysOf key a) := by
  intro a b
  induction a, b using set_union.induct key pr with
  | case1 r =>
    intro _ hv
    simpa [set_union] using hv
  | case2 l hne =>
    intro hv _
    cases l with
    | nil => exact (hne rfl).elim
    | node v a b =>
      refine ⟨by simpa [set_union] using hv, ?_⟩
      intro x
      simp [set_union]
  | case3 lv ll lr rv rl rr heq =>
    intro hva hvb
    have hgoal : set_union key pr (Tree.node lv ll lr) (Tree.node rv rl rr) =
        Tree.node lv ll lr := by
      rw [set_union, if_pos heq]
    rw [hgoal, ← heq]
    exact ⟨hva, fun x => by tauto⟩
  | case4 lv ll lr rv rl rr hne hrank s ih1 ih2 =>
    intro hva hvb
    have hgoal : set_union key pr (Tree.node lv ll lr) (Tree.node rv rl rr) =
        Tree.node lv
          (set_union key pr ll
            (split key (Tree.node rv rl rr) (key lv)).1)
          (set_union key pr lr
            (split key (Tree.node rv rl rr) (key lv)).2) := by
      rw [set_union, if_neg hne, hrank]
    have hklv := (rank_eq_left_iff key pr lv rv).1 hrank
    obtain ⟨hvll, hvlr, hal, har, hpl, hpr⟩ :=
      (valid_node_iff key pr lv ll lr).1 hva
    obtain ⟨vs1, vs2, hsplit, hb1, hb2⟩ := split_spec key pr (key lv) hvb
    have hdom : ∀ x ∈ elems (Tree.node rv rl rr),
        kprec pr (key lv) (key x) := by
      intro x hx
      rcases root_min key pr hvb hx with rfl | h
      · exact hklv
      · exact kprec_trans pr hklv h
    have hknotb : key lv ∉ keysOf key (Tree.node rv rl rr) :=
      not_mem_keys_of_kprec_root key pr hvb hklv
    have hmb : ∀ x : β, x ∈ elems (Tree.node rv rl rr) ↔
        x ∈ elems (split key (Tree.node rv rl rr) (key lv)).1 ∨
        x ∈ elems (split key (Tree.node rv rl rr) (key lv)).2 := by
      intro x
      rw [hsplit]
      exact List.mem_append
    obtain ⟨hv1, hm1⟩ := ih1 hvll vs1
    obtain ⟨hv2, hm2⟩ := ih2 hvlr vs2
    have hsub1 : ∀ x ∈ elems (set_union key pr ll
        (split key (Tree.node rv rl rr) (key lv)).1),
        x ∈ elems ll ∨
        x ∈ elems (split key (Tree.node rv rl rr) (key lv)).1 := by
      intro x hx
      rcases (hm1 x).1 hx with h | ⟨h, _⟩
      · exact Or.inl h
      · exact Or.inr h
    have hsub2 : ∀ x ∈ elems (set_union key pr lr
        (split key (Tree.node rv rl rr) (key lv)).2),
        x ∈ elems lr ∨
        x ∈ elems (split key (Tree.node rv rl rr) (key lv)).2 := by
      intro x hx
      rcases (hm2 x).1 hx with h | ⟨h, _⟩
      · exact Or.inl h
      · exact Or.inr h
    have hs2ne : ∀ x ∈ elems (split key (Tree.node rv rl rr) (key lv)).2,
        key lv < key x := by
      intro x hx
      have h1 : ¬ key x < key lv := hb2 x hx
      have h2 : key x ≠ key lv := by
        intro e
        exact hknotb (e ▸ mem_keys_of_mem key ((hmb x).2 (Or.inr hx)))
      exact lt_of_le_of_ne (not_lt.1 h1) (Ne.symm h2)
    rw [hgoal]
    refine ⟨?_, ?_⟩
    · rw [valid_node_iff]
      refine ⟨hv1, hv2, ?_, ?_, ?_, ?_⟩
      · intro x hx
        rcases hsub1 x hx with h | h
        · exact hal x h
        · exact hb1 x h
      · intro x hx
        rcases hsub2 x hx with h | h
        · exact har x h
        · exact hs2ne x h
      · intro x hx
        rcases hsub1 x hx with h | h
        · exact hpl x h
        · exact hdom x ((hmb x).2 (Or.inl h))
      · intro x hx
        rcases hsub2 x hx with h | h
        · exact hpr x h
        · exact hdom x ((hmb x).2 (Or.inr h))
    · intro x
      constructor
      · intro hx
        simp only [elems_node, List.mem_append, List.mem_cons] at hx
        rcases hx with hx | rfl | hx
        · rcases (hm1 x).1 hx with h | ⟨h, hk⟩
          · exact Or.inl (by simp [h])
          · refine Or.inr ⟨(hmb x).2 (Or.inl h), ?_⟩
            have hxlt : key x < key lv := hb1 x h
            simp only [keysOf_node, List.mem_append, List.mem_cons]
            rintro (hc | hc | hc)
            · exact hk hc
            · exact absurd hc (ne_of_lt hxlt)
            · rcases (mem_keysOf key).1 hc with ⟨y, hy, hyx⟩
              exact absurd (hyx ▸ har y hy) (asymm hxlt)
        · exact Or.inl (by simp)
        · rcases (hm2 x).1 hx with h | ⟨h, hk⟩
          · exact Or.inl (by simp [h])
          · refine Or.inr ⟨(hmb x).2 (Or.inr h), ?_⟩
            have hxgt : key lv < key x := hs2ne x h
            simp only [keysOf_node, List.mem_append, List.mem_cons]
            rintro (hc | hc | hc)
            · rcases (mem_keysOf key).1 hc with ⟨y, hy, hyx⟩
              exact absurd (hyx ▸ hal y hy) (asymm hxgt)
            · exact absurd hc.symm (ne_of_lt hxgt)
            · exact hk hc
      · rintro (hx | ⟨hx, hk⟩)
        · simp only [elems_node, List.mem_append, List.mem_cons] at hx ⊢
          rcases hx with hx | rfl | hx
          · exact Or.inl ((hm1 x).2 (Or.inl hx))
          · exact Or.inr (Or.inl rfl)
          · exact Or.inr (Or.inr ((hm2 x).2 (Or.inl hx)))
        · simp only [keysOf_node, List.mem_append, List.mem_cons,
            not_or] at hk
          obtain ⟨hkll, _, hklr⟩ := hk
          simp only [elems_node, List.mem_append, List.mem_cons]
          rcases (hmb x).1 hx with h | h
          · exact Or.inl ((hm1 x).2 (Or.inr ⟨h, hkll⟩))
          · exact Or.inr (Or.inr ((hm2 x).2 (Or.inr ⟨h, hklr⟩)))
  | case5 lv ll lr rv rl rr hne hrank s ih1 ih2 =>
    intro hva hvb
    have hgoal : set_union key pr (Tree.node lv ll lr) (Tree.node rv rl rr) =
        Tree.node rv
          (set_union key pr
            (split key (Tree.node lv ll lr) (key rv)).1 rl)
          (set_union key pr
            (split key (Tree.node lv ll lr) (key rv)).2 rr) := by
      rw [set_union, if_neg hne, hrank]
    have hkrv := (rank_eq_right_iff key pr lv rv).1 hrank
    obtain ⟨hvrl, hvrr, hbl, hbr, hql, hqr⟩ :=
      (valid_node_iff key pr rv rl rr).1 hvb
    obtain ⟨vs1, vs2, hsplit, hb1, hb2⟩ := split_spec key pr (key rv) hva
    have hdom : ∀ x ∈ elems (Tree.node lv ll lr),
        kprec pr (key rv) (key x) := by
      intro x hx
      rcases root_min key pr hva hx with rfl | h
      · exact hkrv
      · exact kprec_trans pr hkrv h
    have hknota : key rv ∉ keysOf key (Tree.node lv ll lr) :=
      not_mem_keys_of_kprec_root key pr hva hkrv
    have hma : ∀ x : β, x ∈ elems (Tree.node lv ll lr) ↔
        x ∈ elems (split key (Tree.node lv ll lr) (key rv)).1 ∨
        x ∈ elems (split key (Tree.node lv ll lr) (key rv)).2 := by
      intro x
      rw [hsplit]
      exact List.mem_append
    have hkeysa : ∀ k : α, k ∈ keysOf key (Tree.node lv ll lr) ↔
        k ∈ keysOf key (split key (Tree.node lv ll lr) (key rv)).1 ∨
        k ∈ keysOf key (split key (Tree.node lv ll lr) (key rv)).2 := by
      intro k
      unfold keysOf
      rw [hsplit]
      simp
    obtain ⟨hv1, hm1⟩ := ih1 vs1 hvrl
    obtain ⟨hv2, hm2⟩ := ih2 vs2 hvrr
    have hsub1 : ∀ x ∈ elems (set_union key pr
        (split key (Tree.node lv ll lr) (key rv)).1 rl),
        x ∈ elems (split key (Tree.node lv ll lr) (key rv)).1 ∨
        x ∈ elems rl := by
      intro x hx
      rcases (hm1 x).1 hx with h | ⟨h, _⟩
      · exact Or.inl h
      · exact Or.inr h
    have hsub2 : ∀ x ∈ elems (set_union key pr
        (split key (Tree.node lv ll lr) (key rv)).2 rr),
        x ∈ elems (split key (Tree.node lv ll lr) (key rv)).2 ∨
        x ∈ elems rr := by
      intro x hx
      rcases (hm2 x).1 hx with h | ⟨h, _⟩
      · exact Or.inl h
      · exact Or.inr h
    have hs2ne : ∀ x ∈ elems (split key (Tree.node lv ll lr) (key rv)).2,
        key rv < key x := by
      intro x hx
      have h1 : ¬ key x < key rv := hb2 x hx
      have h2 : key x ≠ key rv := by
        intro e
        exact hknota (e ▸ mem_keys_of_mem key ((hma x).2 (Or.inr hx)))
      exact lt_of_le_of_ne (not_lt.1 h1) (Ne.symm h2)
    rw [hgoal]
    refine ⟨?_, ?_⟩
    · rw [valid_node_iff]
      refine ⟨hv1, hv2, ?_, ?_, ?_, ?_⟩
      · intro x hx
        rcases hsub1 x hx with h | h
        · exact hb1 x h
        · exact hbl x h
      · intro x hx
        rcases hsub2 x hx with h | h
        · exact hs2ne x h
        · exact hbr x h
      · intro x hx
        rcases hsub1 x hx with h | h
        · exact hdom x ((hma x).2 (Or.inl h))
        · exact hql x h
      · intro x hx
        rcases hsub2 x hx with h | h
        · exact hdom x ((hma x).2 (Or.inr h))
        · exact hqr x h
    · intro x
      constructor
      · intro hx
        simp only [elems_node, List.mem_append, List.mem_cons] at hx
        rcases hx with hx | rfl | hx
        · rcases (hm1 x).1 hx with h | ⟨h, hk⟩
          · exact Or.inl ((hma x).2 (Or.inl h))
          · refine Or.inr ⟨by simp [h], ?_⟩
            rw [hkeysa]
            have hxlt : key x < key rv := hbl x h
            rintro (hc | hc)
            · exact hk hc
            · rcases (mem_keysOf key).1 hc with ⟨y, hy, hyx⟩
              exact absurd (hyx ▸ hs2ne y hy) (asymm hxlt)
        · exact Or.inr ⟨by simp, hknota⟩
        · rcases (hm2 x).1 hx with h | ⟨h, hk⟩
          · exact Or.inl ((hma x).2 (Or.inr h))
          · refine Or.inr ⟨by simp [h], ?_⟩
            rw [hkeysa]
            have hxgt : key rv < key x := hbr x h
            rintro (hc | hc)
            · rcases (mem_keysOf key).1 hc with ⟨y, hy, hyx⟩
              exact absurd (hyx ▸ hb1 y hy) (asymm hxgt)
            · exact hk hc
      · rintro (hx | ⟨hx, hk⟩)
        · simp only [elems_node, List.mem_append, List.mem_cons]
          rcases (hma x).1 hx with h | h
          · exact Or.inl ((hm1 x).2 (Or.inl h))
          · exact Or.inr (Or.inr ((hm2 x).2 (Or.inl h)))
        · have hks1 : key x ∉
              keysOf key (split key (Tree.node lv ll lr) (key rv)).1 :=
            fun hc => hk ((hkeysa (key x)).2 (Or.inl hc))
          have hks2 : key x ∉
              keysOf key (split key (Tree.node lv ll lr) (key rv)).2 :=
            fun hc => hk ((hkeysa (key x)).2 (Or.inr hc))
          simp only [elems_node, List.mem_append, List.mem_cons] at hx ⊢
          rcases hx with hx | rfl | hx
          · exact Or.inl ((hm1 x).2 (Or.inr ⟨hx, hks1⟩))
          · exact Or.inr (Or.inl rfl)
          · exact Or.inr (Or.inr ((hm2 x).2 (Or.inr ⟨hx, hks2⟩)))
  | case6 lv ll lr rv rl rr hne hr1 hr2 ih1 ih2 =>
    intro hva hvb
    have hcsame : rank key pr lv rv = Ranking.SAME := by
      cases hc : rank key pr lv rv with
      | LEFT => exact (hr1 hc).elim
      | RIGHT => exact (hr2 hc).elim
      | NOT_SAME => exact (rank_ne_notsame key pr lv rv hc).elim
      | SAME => rfl
    have hsame : key lv = key rv := (rank_eq_same_iff key pr lv rv).1 hcsame
    have hgoal : set_union key pr (Tree.node lv ll lr) (Tree.node rv rl rr) =
        Tree.node lv (set_union key pr ll rl) (set_union key pr lr rr) := by
      rw [set_union, if_neg hne, hcsame]
    obtain ⟨hvll, hvlr, hal, har, hpl, hpr⟩ :=
      (valid_node_iff key pr lv ll lr).1 hva
    obtain ⟨hvrl, hvrr, hbl, hbr, hql, hqr⟩ :=
      (valid_node_iff key pr rv rl rr).1 hvb
    obtain ⟨hv1, hm1⟩ := ih1 hvll hvrl
    obtain ⟨hv2, hm2⟩ := ih2 hvlr hvrr
    have hsub1 : ∀ x ∈ elems (set_union key pr ll rl),
        x ∈ elems ll ∨ x ∈ elems rl := by
      intro x hx
      rcases (hm1 x).1 hx with h | ⟨h, _⟩
      · exact Or.inl h
      · exact Or.inr h
    have hsub2 : ∀ x ∈ elems (set_union key pr lr rr),
        x ∈ elems lr ∨ x ∈ elems rr := by
      intro x hx
      rcases (hm2 x).1 hx with h | ⟨h, _⟩
      · exact Or.inl h
      · exact Or.inr h
    rw [hgoal]
    refine ⟨?_, ?_⟩
    · rw [valid_node_iff]
      refine ⟨hv1, hv2, ?_, ?_, ?_, ?_⟩
      · intro x hx
        rcases hsub1 x hx with h | h
        · exact hal x h
        · exact hsame ▸ hbl x h
      · intro x hx
        rcases hsub2 x hx with h | h
        · exact har x h
        · exact hsame ▸ hbr x h
      · intro x hx
        rcases hsub1 x hx with h | h
        · exact hpl x h
        · exact hsame ▸ hql x h
      · intro x hx
        rcases hsub2 x hx with h | h
        · exact hpr x h
        · exact hsame ▸ hqr x h
    · intro x
      constructor
      · intro hx
        simp only [elems_node, List.mem_append, List.mem_cons] at hx
        rcases hx with hx | rfl | hx
        · rcases (hm1 x).1 hx with h | ⟨h, hk⟩
          · exact Or.inl (by simp [h])
          · refine Or.inr ⟨by simp [h], ?_⟩
            have hxlt : key x < key lv := hsame ▸ hbl x h
            simp only [keysOf_node, List.mem_append, List.mem_cons]
            rintro (hc | hc | hc)
            · exact hk hc
            · exact absurd hc (ne_of_lt hxlt)
            · rcases (mem_keysOf key).1 hc with ⟨y, hy, hyx⟩
              exact absurd (hyx ▸ har y hy) (asymm hxlt)
        · exact Or.inl (by simp)
        · rcases (hm2 x).1 hx with h | ⟨h, hk⟩
          · exact Or.inl (by simp [h])
          · refine Or.inr ⟨by simp [h], ?_⟩
            have hxgt : key lv < key x := hsame ▸ hbr x h
            simp only [keysOf_node, List.mem_append, List.mem_cons]
            rintro (hc | hc | hc)
            · rcases (mem_keysOf key).1 hc with ⟨y, hy, hyx⟩
              exact absurd (hyx ▸ hal y hy) (asymm hxgt)
            · exact absurd hc.symm (ne_of_lt hxgt)
            · exact hk hc
      · rintro (hx | ⟨hx, hk⟩)
        · simp only [elems_node, List.mem_append, List.mem_cons] at hx ⊢
          rcases hx with hx | rfl | hx
          · exact Or.inl ((hm1 x).2 (Or.inl hx))
          · exact Or.inr (Or.inl rfl)
          · exact Or.inr (Or.inr ((hm2 x).2 (Or.inl hx)))
        · simp only [keysOf_node, List.mem_append, List.mem_cons,
            not_or] at hk
          obtain ⟨hkll, hklv, hklr⟩ := hk
          simp only [elems_node, List.mem_append, List.mem_cons] at hx ⊢
          rcases hx with hx | rfl | hx
          · exact Or.inl ((hm1 x).2 (Or.inr ⟨hx, hkll⟩))
          · exact absurd hsame.symm hklv
          · exact Or.inr (Or.inr ((hm2 x).2 (Or.inr ⟨hx, hklr⟩)))

/-- Specification of set_intersection when ranked by internal::rank: the
result is canonical and keeps exactly the values of the left input whose
key also occurs in the right input (the kept value is the one from the
left input, see the SAME branch of the source). -/
theorem inter_spec : ∀ a b : Tree β, Valid key pr a → Valid key pr b →
    Valid key pr (set_intersection key pr (rank key pr) a b) ∧
    ∀ x, x ∈ elems (set_intersection key pr (rank key pr) a b) ↔
      x ∈ elems a ∧ key x ∈ keysOf key b := by
  intro a b
  induction a, b using set_intersection.induct key pr (rank key pr) with
  | case1 r =>
    intro _ _
    exact ⟨by simp [set_intersection], fun x => by simp [set_intersection]⟩
  | case2 l hne =>
    intro _ _
    cases l with
    | nil => exact (hne rfl).elim
    | node v a b =>
      exact ⟨by simp [set_intersection],
        fun x => by simp [set_intersection]⟩
  | case3 lv ll lr rv rl rr heq =>
    intro hva hvb
    have hgoal : set_intersection key pr (rank key pr)
        (Tree.node lv ll lr) (Tree.node rv rl rr) = Tree.node lv ll lr := by
      rw [set_intersection, if_pos heq]
    rw [hgoal, ← heq]
    refine ⟨hva, fun x => ?_⟩
    exact ⟨fun hx => ⟨hx, mem_keys_of_mem key hx⟩, fun h => h.1⟩
  | case4 lv ll lr rv rl rr hne hrank s ih1 ih2 =>
    intro hva hvb
    have hgoal : set_intersection key pr (rank key pr)
        (Tree.node lv ll lr) (Tree.node rv rl rr) =
        join key pr
          (set_intersection key pr (rank key pr) ll
            (split key (Tree.node rv rl rr) (key lv)).1)
          (set_intersection key pr (rank key pr) lr
            (split key (Tree.node rv rl rr) (key lv)).2) := by
      rw [set_intersection, if_neg hne, hrank]
    have hklv := (rank_eq_left_iff key pr lv rv).1 hrank
    obtain ⟨hvll, hvlr, hal, har, hpl, hpr⟩ :=
      (valid_node_iff key pr lv ll lr).1 hva
    obtain ⟨vs1, vs2, hsplit, hb1, hb2⟩ := split_spec key pr (key lv) hvb
    have hknotb : key lv ∉ keysOf key (Tree.node rv rl rr) :=
      not_mem_keys_of_kprec_root key pr hvb hklv
    have hkeysb : ∀ k : α, k ∈ keysOf key (Tree.node rv rl rr) ↔
        k ∈ keysOf key (split key (Tree.node rv rl rr) (key lv)).1 ∨
        k ∈ keysOf key (split key (Tree.node rv rl rr) (key lv)).2 := by
      intro k
      unfold keysOf
      rw [hsplit]
      simp
    obtain ⟨hv1, hm1⟩ := ih1 hvll vs1
    obtain ⟨hv2, hm2⟩ := ih2 hvlr vs2
    have hsub1 : ∀ x ∈ elems (set_intersection key pr (rank key pr) ll
        (split key (Tree.node rv rl rr) (key lv)).1), x ∈ elems ll :=
      fun x hx => ((hm1 x).1 hx).1
    have hsub2 : ∀ x ∈ elems (set_intersection key pr (rank key pr) lr
        (split key (Tree.node rv rl rr) (key lv)).2), x ∈ elems lr :=
      fun x hx => ((hm2 x).1 hx).1
    have hsep : ∀ x ∈ elems (set_intersection key pr (rank key pr) ll
          (split key (Tree.node rv rl rr) (key lv)).1),
        ∀ y ∈ elems (set_intersection key pr (rank key pr) lr
          (split key (Tree.node rv rl rr) (key lv)).2),
        key x < key y :=
      fun x hx y hy => (hal x (hsub1 x hx)).trans (har y (hsub2 y hy))
    obtain ⟨hvj, hej⟩ := join_spec key pr _ _ hv1 hv2 hsep
    rw [hgoal]
    refine ⟨hvj, fun x => ?_⟩
    rw [hej]
    constructor
    · intro hx
      rcases List.mem_append.1 hx with h | h
      · obtain ⟨h1, h2⟩ := (hm1 x).1 h
        exact ⟨by simp [h1], (hkeysb (key x)).2 (Or.inl h2)⟩
      · obtain ⟨h1, h2⟩ := (hm2 x).1 h
        exact ⟨by simp [h1], (hkeysb (key x)).2 (Or.inr h2)⟩
    · rintro ⟨hx, hkb⟩
      simp only [elems_node, List.mem_append, List.mem_cons] at hx
      rcases (hkeysb (key x)).1 hkb with hk | hk
      · have hxlt : key x < key lv := by
          rcases (mem_keysOf key).1 hk with ⟨y, hy, hyx⟩
          exact hyx ▸ hb1 y hy
        rcases hx with hx | rfl | hx
        · exact List.mem_append_left _ ((hm1 x).2 ⟨hx, hk⟩)
        · exact absurd hxlt (lt_irrefl _)
        · exact absurd (har x hx) (asymm hxlt)
      · have hxge : ¬ key x < key lv := by
          rcases (mem_keysOf key).1 hk with ⟨y, hy, hyx⟩
          exact hyx ▸ hb2 y hy
        rcases hx with hx | rfl | hx
        · exact absurd (hal x hx) hxge
        · exact absurd hkb hknotb
        · exact List.mem_append_right _ ((hm2 x).2 ⟨hx, hk⟩)
  | case5 lv ll lr rv rl rr hne hrank s ih1 ih2 =>
    intro hva hvb
    have hgoal : set_intersection key pr (rank key pr)
        (Tree.node lv ll lr) (Tree.node rv rl rr) =
        join key pr
          (set_intersection key pr (rank key pr)
            (split key (Tree.node lv ll lr) (key rv)).1 rl)
          (set_intersection key pr (rank key pr)
            (split key (Tree.node lv ll lr) (key rv)).2 rr) := by
      rw [set_intersection, if_neg hne, hrank]
    have hkrv := (rank_eq_right_iff key pr lv rv).1 hrank
    obtain ⟨hvrl, hvrr, hbl, hbr, hql, hqr⟩ :=
      (valid_node_iff key pr rv rl rr).1 hvb
    obtain ⟨vs1, vs2, hsplit, hb1, hb2⟩ := split_spec key pr (key rv) hva
    have hknota : key rv ∉ keysOf key (Tree.node lv ll lr) :=
      not_mem_keys_of_kprec_root key pr hva hkrv
    have hma : ∀ x : β, x ∈ elems (Tree.node lv ll lr) ↔
        x ∈ elems (split key (Tree.node lv ll lr) (key rv)).1 ∨
        x ∈ elems (split key (Tree.node lv ll lr) (key rv)).2 := by
      intro x
      rw [hsplit]
      exact List.mem_append
    obtain ⟨hv1, hm1⟩ := ih1 vs1 hvrl
    obtain ⟨hv2, hm2⟩ := ih2 vs2 hvrr
    have hsub1 : ∀ x ∈ elems (set_intersection key pr (rank key pr)
        (split key (Tree.node lv ll lr) (key rv)).1 rl),
        x ∈ elems (split key (Tree.node lv ll lr) (key rv)).1 :=
      fun x hx => ((hm1 x).1 hx).1
    have hsub2 : ∀ x ∈ elems (set_intersection key pr (rank key pr)
        (split key (Tree.node lv ll lr) (key rv)).2 rr),
        x ∈ elems (split key (Tree.node lv ll lr) (key rv)).2 :=
      fun x hx => ((hm2 x).1 hx).1
    have hsep : ∀ x ∈ elems (set_intersection key pr (rank key pr)
          (split key (Tree.node lv ll lr) (key rv)).1 rl),
        ∀ y ∈ elems (set_intersection key pr (rank key pr)
          (split key (Tree.node lv ll lr) (key rv)).2 rr),
        key x < key y :=
      fun x hx y hy =>
        (hb1 x (hsub1 x hx)).trans_le (not_lt.1 (hb2 y (hsub2 y hy)))
    obtain ⟨hvj, hej⟩ := join_spec key pr _ _ hv1 hv2 hsep
    rw [hgoal]
    refine ⟨hvj, fun x => ?_⟩
    rw [hej]
    constructor
    · intro hx
      rcases List.mem_append.1 hx with h | h
      · obtain ⟨h1, h2⟩ := (hm1 x).1 h
        exact ⟨(hma x).2 (Or.inl h1), by simp [h2]⟩
      · obtain ⟨h1, h2⟩ := (hm2 x).1 h
        exact ⟨(hma x).2 (Or.inr h1), by simp [h2]⟩
    · rintro ⟨hx, hkb⟩
      simp only [keysOf_node, List.mem_append, List.mem_cons] at hkb
      rcases hkb with hk | hk | hk
      · have hxlt : key x < key rv := by
          rcases (mem_keysOf key).1 hk with ⟨y, hy, hyx⟩
          exact hyx ▸ hbl y hy
        rcases (hma x).1 hx with h | h
        · exact List.mem_append_left _ ((hm1 x).2 ⟨h, hk⟩)
        · exact absurd hxlt (hb2 x h)
      · exact absurd (hk ▸ mem_keys_of_mem key hx) hknota
      · have hxgt : key rv < key x := by
          rcases (mem_keysOf key).1 hk with ⟨y, hy, hyx⟩
          exact hyx ▸ hbr y hy
        rcases (hma x).1 hx with h | h
        · exact absurd (hb1 x h) (asymm hxgt)
        · exact List.mem_append_right _ ((hm2 x).2 ⟨h, hk⟩)
  | case6 lv ll lr rv rl rr hne hrank ih1 ih2 =>
    intro _ _
    exact absurd hrank (rank_ne_notsame key pr lv rv)
  | case7 lv ll lr rv rl rr hne hrank ih1 ih2 =>
    intro hva hvb
    have hsame : key lv = key rv := (rank_eq_same_iff key pr lv rv).1 hrank
    have hgoal : set_intersection key pr (rank key pr)
        (Tree.node lv ll lr) (Tree.node rv rl rr) =
        Tree.node lv (set_intersection key pr (rank key pr) ll rl)
          (set_intersection key pr (rank key pr) lr rr) := by
      rw [set_intersection, if_neg hne, hrank]
    obtain ⟨hvll, hvlr, hal, har, hpl, hpr⟩ :=
      (valid_node_iff key pr lv ll lr).1 hva
    obtain ⟨hvrl, hvrr, hbl, hbr, hql, hqr⟩ :=
      (valid_node_iff key pr rv rl rr).1 hvb
    obtain ⟨hv1, hm1⟩ := ih1 hvll hvrl
    obtain ⟨hv2, hm2⟩ := ih2 hvlr hvrr
    have hsub1 : ∀ x ∈ elems (set_intersection key pr (rank key pr) ll rl),
        x ∈ elems ll := fun x hx => ((hm1 x).1 hx).1
    have hsub2 : ∀ x ∈ elems (set_intersection key pr (rank key pr) lr rr),
        x ∈ elems lr := fun x hx => ((hm2 x).1 hx).1
    rw [hgoal]
    refine ⟨?_, fun x => ?_⟩
    · rw [valid_node_iff]
      exact ⟨hv1, hv2, fun x hx => hal x (hsub1 x hx),
        fun x hx => har x (hsub2 x hx),
        fun x hx => hpl x (hsub1 x hx),
        fun x hx => hpr x (hsub2 x hx)⟩
    · constructor
      · intro hx
        simp only [elems_node, List.mem_append, List.mem_cons] at hx
        rcases hx with hx | rfl | hx
        · obtain ⟨h1, h2⟩ := (hm1 x).1 hx
          exact ⟨by simp [h1], by simp [h2]⟩
        · exact ⟨by simp, by simp [hsame]⟩
        · obtain ⟨h1, h2⟩ := (hm2 x).1 hx
          exact ⟨by simp [h1], by simp [h2]⟩
      · rintro ⟨hx, hkb⟩
        simp only [elems_node, List.mem_append, List.mem_cons] at hx ⊢
        simp only [keysOf_node, List.mem_append, List.mem_cons] at hkb
        rcases hkb with hk | hk | hk
        · have hxlt : key x < key lv := by
            rcases (mem_keysOf key).1 hk with ⟨y, hy, hyx⟩
            exact hsame ▸ hyx ▸ hbl y hy
          rcases hx with hx | rfl | hx
          · exact Or.inl ((hm1 x).2 ⟨hx, hk⟩)
          · exact absurd hxlt (lt_irrefl _)
          · exact absurd (har x hx) (asymm hxlt)
        · have hxeq : key x = key lv := hsame ▸ hk
          rcases hx with hx | rfl | hx
          · exact absurd hxeq (ne_of_lt (hal x hx))
          · exact Or.inr (Or.inl rfl)
          · exact absurd hxeq.symm (ne_of_lt (har x hx))
        · have hxgt : key lv < key x := by
            rcases (mem_keysOf key).1 hk with ⟨y, hy, hyx⟩
            exact hsame ▸ hyx ▸ hbr y hy
          rcases hx with hx | rfl | hx
          · exact absurd (hal x hx) (asymm hxgt)
          · exact absurd hxgt (lt_irrefl _)
          · exact Or.inr (Or.inr ((hm2 x).2 ⟨hx, hk⟩))

/-- Specification of set_difference when ranked by internal::rank: the
result is canonical and keeps exactly the values of the left input whose
key does not occur in the right input. -/
theorem diff_spec : ∀ a b : Tree β, Valid key pr a → Valid key pr b →
    Valid key pr (set_difference key pr (rank key pr) a b) ∧
    ∀ x, x ∈ elems (set_difference key pr (rank key pr) a b) ↔
      x ∈ elems a ∧ key x ∉ keysOf key b := by
  intro a b
  induction a, b using set_difference.induct key pr (rank key pr) with
  | case1 r =>
    intro _ _
    exact ⟨by simp [set_difference], fun x => by simp [set_difference]⟩
  | case2 l hne =>
    intro hva _
    cases l with
    | nil => exact (hne rfl).elim
    | node v a b =>
      exact ⟨by simpa [set_difference] using hva,
        fun x => by simp [set_difference]⟩
  | case3 lv ll lr rv rl rr heq =>
    intro hva hvb
    have hgoal : set_difference key pr (rank key pr)
        (Tree.node lv ll lr) (Tree.node rv rl rr) = Tree.nil := by
      rw [set_difference, if_pos heq]
    rw [hgoal]
    refine ⟨valid_nil key pr, fun x => ?_⟩
    constructor
    · intro hx
      simp at hx
    · rintro ⟨hx, hk⟩
      exact absurd (heq ▸ mem_keys_of_mem key hx) hk
  | case4 lv ll lr rv rl rr hne hrank s ih1 ih2 =>
    intro hva hvb
    have hgoal : set_difference key pr (rank key pr)
        (Tree.node lv ll lr) (Tree.node rv rl rr) =
        Tree.node lv
          (set_difference key pr (rank key pr) ll
            (split key (Tree.node rv rl rr) (key lv)).1)
          (set_difference key pr (rank key pr) lr
            (split key (Tree.node rv rl rr) (key lv)).2) := by
      rw [set_difference, if_neg hne, hrank]
    have hklv := (rank_eq_left_iff key pr lv rv).1 hrank
    obtain ⟨hvll, hvlr, hal, har, hpl, hpr⟩ :=
      (valid_node_iff key pr lv ll lr).1 hva
    obtain ⟨vs1, vs2, hsplit, hb1, hb2⟩ := split_spec key pr (key lv) hvb
    have hknotb : key lv ∉ keysOf key (Tree.node rv rl rr) :=
      not_mem_keys_of_kprec_root key pr hvb hklv
    have hkeysb : ∀ k : α, k ∈ keysOf key (Tree.node rv rl rr) ↔
        k ∈ keysOf key (split key (Tree.node rv rl rr) (key lv)).1 ∨
        k ∈ keysOf key (split key (Tree.node rv rl rr) (key lv)).2 := by
      intro k
      unfold keysOf
      rw [hsplit]
      simp
    obtain ⟨hv1, hm1⟩ := ih1 hvll vs1
    obtain ⟨hv2, hm2⟩ := ih2 hvlr vs2
    have hsub1 : ∀ x ∈ elems (set_difference key pr (rank key pr) ll
        (split key (Tree.node rv rl rr) (key lv)).1), x ∈ elems ll :=
      fun x hx => ((hm1 x).1 hx).1
    have hsub2 : ∀ x ∈ elems (set_difference key pr (rank key pr) lr
        (split key (Tree.node rv rl rr) (key lv)).2), x ∈ elems lr :=
      fun x hx => ((hm2 x).1 hx).1
    rw [hgoal]
    refine ⟨?_, fun x => ?_⟩
    · rw [valid_node_iff]
      exact ⟨hv1, hv2, fun x hx => hal x (hsub1 x hx),
        fun x hx => har x (hsub2 x hx),
        fun x hx => hpl x (hsub1 x hx),
        fun x hx => hpr x (hsub2 x hx)⟩
    · constructor
      · intro hx
        simp only [elems_node, List.mem_append, List.mem_cons] at hx
        rcases hx with hx | rfl | hx
        · obtain ⟨h1, hk⟩ := (hm1 x).1 hx
          refine ⟨by simp [h1], fun hc => ?_⟩
          rcases (hkeysb (key x)).1 hc with hc1 | hc2
          · exact hk hc1
          · rcases (mem_keysOf key).1 hc2 with ⟨y, hy, hyx⟩
            exact hb2 y hy (hyx ▸ hal x h1)
        · exact ⟨by simp, hknotb⟩
        · obtain ⟨h1, hk⟩ := (hm2 x).1 hx
          refine ⟨by simp [h1], fun hc => ?_⟩
          rcases (hkeysb (key x)).1 hc with hc1 | hc2
          · rcases (mem_keysOf key).1 hc1 with ⟨y, hy, hyx⟩
            exact absurd (hyx ▸ hb1 y hy) (asymm (har x h1))
          · exact hk hc2
      · rintro ⟨hx, hkb⟩
        have hk1 : key x ∉
            keysOf key (split key (Tree.node rv rl rr) (key lv)).1 :=
          fun hc => hkb ((hkeysb (key x)).2 (Or.inl hc))
        have hk2 : key x ∉
            keysOf key (split key (Tree.node rv rl rr) (key lv)).2 :=
          fun hc => hkb ((hkeysb (key x)).2 (Or.inr hc))
        simp only [elems_node, List.mem_append, List.mem_cons] at hx ⊢
        rcases hx with hx | rfl | hx
        · exact Or.inl ((hm1 x).2 ⟨hx, hk1⟩)
        · exact Or.inr (Or.inl rfl)
        · exact Or.inr (Or.inr ((hm2 x).2 ⟨hx, hk2⟩))
  | case5 lv ll lr rv rl rr hne hrank s ih1 ih2 =>
    intro hva hvb
    have hgoal : set_difference key pr (rank key pr)
        (Tree.node lv ll lr) (Tree.node rv rl rr) =
        join key pr
          (set_difference key pr (rank key pr)
            (split key (Tree.node lv ll lr) (key rv)).1 rl)
          (set_difference key pr (rank key pr)
            (split key (Tree.node lv ll lr) (key rv)).2 rr) := by
      rw [set_difference, if_neg hne, hrank]
    have hkrv := (rank_eq_right_iff key pr lv rv).1 hrank
    obtain ⟨hvrl, hvrr, hbl, hbr, hql, hqr⟩ :=
      (valid_node_iff key pr rv rl rr).1 hvb
    obtain ⟨vs1, vs2, hsplit, hb1, hb2⟩ := split_spec key pr (key rv) hva
    have hknota : key rv ∉ keysOf key (Tree.node lv ll lr) :=
      not_mem_keys_of_kprec_root key pr hva hkrv
    have hma : ∀ x : β, x ∈ elems (Tree.node lv ll lr) ↔
        x ∈ elems (split key (Tree.node lv ll lr) (key rv)).1 ∨
        x ∈ elems (split key (Tree.node lv ll lr) (key rv)).2 := by
      intro x
      rw [hsplit]
      exact List.mem_append
    obtain ⟨hv1, hm1⟩ := ih1 vs1 hvrl
    obtain ⟨hv2, hm2⟩ := ih2 vs2 hvrr
    have hsub1 : ∀ x ∈ elems (set_difference key pr (rank key pr)
        (split key (Tree.node lv ll lr) (key rv)).1 rl),
        x ∈ elems (split key (Tree.node lv ll lr) (key rv)).1 :=
      fun x hx => ((hm1 x).1 hx).1
    have hsub2 : ∀ x ∈ elems (set_difference key pr (rank key pr)
        (split key (Tree.node lv ll lr) (key rv)).2 rr),
        x ∈ elems (split key (Tree.node lv ll lr) (key rv)).2 :=
      fun x hx => ((hm2 x).1 hx).1
    have hsep : ∀ x ∈ elems (set_difference key pr (rank key pr)
          (split key (Tree.node lv ll lr) (key rv)).1 rl),
        ∀ y ∈ elems (set_difference key pr (rank key pr)
          (split key (Tree.node lv ll lr) (key rv)).2 rr),
        key x < key y :=
      fun x hx y hy =>
        (hb1 x (hsub1 x hx)).trans_le (not_lt.1 (hb2 y (hsub2 y hy)))
    obtain ⟨hvj, hej⟩ := join_spec key pr _ _ hv1 hv2 hsep
    rw [hgoal]
    refine ⟨hvj, fun x => ?_⟩
    rw [hej]
    constructor
    · intro hx
      rcases List.mem_append.1 hx with h | h
      · obtain ⟨h1, hk⟩ := (hm1 x).1 h
        have hxlt : key x < key rv := hb1 x h1
        refine ⟨(hma x).2 (Or.inl h1), ?_⟩
        simp only [keysOf_node, List.mem_append, List.mem_cons]
        rintro (hc | hc | hc)
        · exact hk hc
        · exact absurd hc (ne_of_lt hxlt)
        · rcases (mem_keysOf key).1 hc with ⟨y, hy, hyx⟩
          exact absurd (hyx ▸ hbr y hy) (asymm hxlt)
      · obtain ⟨h1, hk⟩ := (hm2 x).1 h
        have hxne : key x ≠ key rv := fun hc =>
          hknota (hc ▸ mem_keys_of_mem key ((hma x).2 (Or.inr h1)))
        have hxgt : key rv < key x :=
          lt_of_le_of_ne (not_lt.1 (hb2 x h1)) (Ne.symm hxne)
        refine ⟨(hma x).2 (Or.inr h1), ?_⟩
        simp only [keysOf_node, List.mem_append, List.mem_cons]
        rintro (hc | hc | hc)
        · rcases (mem_keysOf key).1 hc with ⟨y, hy, hyx⟩
          exact absurd (hyx ▸ hbl y hy) (asymm hxgt)
        · exact absurd hc.symm (ne_of_lt hxgt)
        · exact hk hc
    · rintro ⟨hx, hkb⟩
      simp only [keysOf_node, List.mem_append, List.mem_cons,
        not_or] at hkb
      obtain ⟨hkrl, hkrv2, hkrr⟩ := hkb
      rcases (hma x).1 hx with h | h
      · exact List.mem_append_left _ ((hm1 x).2 ⟨h, hkrl⟩)
      · exact List.mem_append_right _ ((hm2 x).2 ⟨h, hkrr⟩)
  | case6 lv ll lr rv rl rr hne hrank ih1 ih2 =>
    intro _ _
    exact absurd hrank (rank_ne_notsame key pr lv rv)
  | case7 lv ll lr rv rl rr hne hrank ih1 ih2 =>
    intro hva hvb
    have hsame : key lv = key rv := (rank_eq_same_iff key pr lv rv).1 hrank
    have hgoal : set_difference key pr (rank key pr)
        (Tree.node lv ll lr) (Tree.node rv rl rr) =
        join key pr (set_difference key pr (rank key pr) ll rl)
          (set_difference key pr (rank key pr) lr rr) := by
      rw [set_difference, if_neg hne, hrank]
    obtain ⟨hvll, hvlr, hal, har, hpl, hpr⟩ :=
      (valid_node_iff key pr lv ll lr).1 hva
    obtain ⟨hvrl, hvrr, hbl, hbr, hql, hqr⟩ :=
      (valid_node_iff key pr rv rl rr).1 hvb
    obtain ⟨hv1, hm1⟩ := ih1 hvll hvrl
    obtain ⟨hv2, hm2⟩ := ih2 hvlr hvrr
    have hsub1 : ∀ x ∈ elems (set_difference key pr (rank key pr) ll rl),
        x ∈ elems ll := fun x hx => ((hm1 x).1 hx).1
    have hsub2 : ∀ x ∈ elems (set_difference key pr (rank key pr) lr rr),
        x ∈ elems lr := fun x hx => ((hm2 x).1 hx).1
    have hsep : ∀ x ∈ elems (set_difference key pr (rank key pr) ll rl),
        ∀ y ∈ elems (set_difference key pr (rank key pr) lr rr),
        key x < key y :=
      fun x hx y hy => (hal x (hsub1 x hx)).trans (har y (hsub2 y hy))
    obtain ⟨hvj, hej⟩ := join_spec key pr _ _ hv1 hv2 hsep
    rw [hgoal]
    refine ⟨hvj, fun x => ?_⟩
    rw [hej]
    constructor
    · intro hx
      rcases List.mem_append.1 hx with h | h
      · obtain ⟨h1, hk⟩ := (hm1 x).1 h
        have hxlt : key x < key rv := hsame ▸ hal x h1
        refine ⟨by simp [h1], ?_⟩
        simp only [keysOf_node, List.mem_append, List.mem_cons]
        rintro (hc | hc | hc)
        · exact hk hc
        · exact absurd hc (ne_of_lt hxlt)
        · rcases (mem_keysOf key).1 hc with ⟨y, hy, hyx⟩
          exact absurd (hyx ▸ hbr y hy) (asymm hxlt)
      · obtain ⟨h1, hk⟩ := (hm2 x).1 h
        have hxgt : key rv < key x := hsame ▸ har x h1
        refine ⟨by simp [h1], ?_⟩
        simp only [keysOf_node, List.mem_append, List.mem_cons]
        rintro (hc | hc | hc)
        · rcases (mem_keysOf key).1 hc with ⟨y, hy, hyx⟩
          exact absurd (hyx ▸ hbl y hy) (asymm hxgt)
        · exact absurd hc.symm (ne_of_lt hxgt)
        · exact hk hc
    · rintro ⟨hx, hkb⟩
      simp only [keysOf_node, List.mem_append, List.mem_cons,
        not_or] at hkb
      obtain ⟨hkrl, hkrv2, hkrr⟩ := hkb
      simp only [elems_node, List.mem_append, List.mem_cons] at hx
      rcases hx with hx | rfl | hx
      · exact List.mem_append_left _ ((hm1 x).2 ⟨hx, hkrl⟩)
      · exact absurd hsame hkrv2
      · exact List.mem_append_right _ ((hm2 x).2 ⟨hx, hkrr⟩)

/-- Specification of set_symmetric: the result is canonical and keeps
exactly the values of either input whose key does not occur in the other
input. -/
theorem sym_spec : ∀ a b : Tree β, Valid key pr a → Valid key pr b →
    Valid key pr (set_symmetric key pr a b) ∧
    ∀ x, x ∈ elems (set_symmetric key pr a b) ↔
      (x ∈ elems a ∧ key x ∉ keysOf key b) ∨
      (x ∈ elems b ∧ key x ∉ keysOf key a) := by
  intro a b
  induction a, b using set_symmetric.induct key pr with
  | case1 r =>
    intro _ hvb
    refine ⟨by simpa [set_symmetric] using hvb, fun x => ?_⟩
    simp [set_symmetric]
  | case2 l hne =>
    intro hva _
    cases l with
    | nil => exact (hne rfl).elim
    | node v a b =>
      refine ⟨by simpa [set_symmetric] using hva, fun x => ?_⟩
      simp [set_symmetric]
  | case3 lv ll lr rv rl rr heq =>
    intro hva hvb
    have hgoal : set_symmetric key pr
        (Tree.node lv ll lr) (Tree.node rv rl rr) = Tree.nil := by
      rw [set_symmetric, if_pos heq]
    rw [hgoal, ← heq]
    refine ⟨valid_nil key pr, fun x => ?_⟩
    constructor
    · intro hx
      simp at hx
    · rintro (⟨hx, hk⟩ | ⟨hx, hk⟩) <;>
        exact absurd (mem_keys_of_mem key hx) hk
  | case4 lv ll lr rv rl rr hne hrank s ih1 ih2 =>
    intro hva hvb
    have hgoal : set_symmetric key pr
        (Tree.node lv ll lr) (Tree.node rv rl rr) =
        Tree.node lv
          (set_symmetric key pr ll
            (split key (Tree.node rv rl rr) (key lv)).1)
          (set_symmetric key pr lr
            (split key (Tree.node rv rl rr) (key lv)).2) := by
      rw [set_symmetric, if_neg hne, hrank]
    have hklv := (rank_eq_left_iff key pr lv rv).1 hrank
    obtain ⟨hvll, hvlr, hal, har, hpl, hpr⟩ :=
      (valid_node_iff key pr lv ll lr).1 hva
    obtain ⟨vs1, vs2, hsplit, hb1, hb2⟩ := split_spec key pr (key lv) hvb
    have hdom : ∀ x ∈ elems (Tree.node rv rl rr),
        kprec pr (key lv) (key x) := by
      intro x hx
      rcases root_min key pr hvb hx with rfl | h
      · exact hklv
      · exact kprec_trans pr hklv h
    have hknotb : key lv ∉ keysOf key (Tree.node rv rl rr) :=
      not_mem_keys_of_kprec_root key pr hvb hklv
    have hmb : ∀ x : β, x ∈ elems (Tree.node rv rl rr) ↔
        x ∈ elems (split key (Tree.node rv rl rr) (key lv)).1 ∨
        x ∈ elems (split key (Tree.node rv rl rr) (key lv)).2 := by
      intro x
      rw [hsplit]
      exact List.mem_append
    have hkeysb : ∀ k : α, k ∈ keysOf key (Tree.node rv rl rr) ↔
        k ∈ keysOf key (split key (Tree.node rv rl rr) (key lv)).1 ∨
        k ∈ keysOf key (split key (Tree.node rv rl rr) (key lv)).2 := by
      intro k
      unfold keysOf
      rw [hsplit]
      simp
    have hs2ne : ∀ x ∈ elems (split key (Tree.node rv rl rr) (key lv)).2,
        key lv < key x := by
      intro x hx
      have h2 : key x ≠ key lv := fun e =>
        hknotb (e ▸ mem_keys_of_mem key ((hmb x).2 (Or.inr hx)))
      exact lt_of_le_of_ne (not_lt.1 (hb2 x hx)) (Ne.symm h2)
    obtain ⟨hv1, hm1⟩ := ih1 hvll vs1
    obtain ⟨hv2, hm2⟩ := ih2 hvlr vs2
    have hsub1 : ∀ x ∈ elems (set_symmetric key pr ll
        (split key (Tree.node rv rl rr) (key lv)).1),
        x ∈ elems ll ∨
        x ∈ elems (split key (Tree.node rv rl rr) (key lv)).1 := by
      intro x hx
      rcases (hm1 x).1 hx with ⟨h, _⟩ | ⟨h, _⟩
      · exact Or.inl h
      · exact Or.inr h
    have hsub2 : ∀ x ∈ elems (set_symmetric key pr lr
        (split key (Tree.node rv rl rr) (key lv)).2),
        x ∈ elems lr ∨
        x ∈ elems (split key (Tree.node rv rl rr) (key lv)).2 := by
      intro x hx
      rcases (hm2 x).1 hx with ⟨h, _⟩ | ⟨h, _⟩
      · exact Or.inl h
      · exact Or.inr h
    rw [hgoal]
    refine ⟨?_, fun x => ?_⟩
    · rw [valid_node_iff]
      refine ⟨hv1, hv2, ?_, ?_, ?_, ?_⟩
      · intro x hx
        rcases hsub1 x hx with h | h
        · exact hal x h
        · exact hb1 x h
      · intro x hx
        rcases hsub2 x hx with h | h
        · exact har x h
        · exact hs2ne x h
      · intro x hx
        rcases hsub1 x hx with h | h
        · exact hpl x h
        · exact hdom x ((hmb x).2 (Or.inl h))
      · intro x hx
        rcases hsub2 x hx with h | h
        · exact hpr x h
        · exact hdom x ((hmb x).2 (Or.inr h))
    · constructor
      · intro hx
        simp only [elems_node, List.mem_append, List.mem_cons] at hx
        rcases hx with hx | rfl | hx
        · rcases (hm1 x).1 hx with ⟨h, hk⟩ | ⟨h, hk⟩
          · refine Or.inl ⟨by simp [h], fun hc => ?_⟩
            rcases (hkeysb (key x)).1 hc with hc1 | hc2
            · exact hk hc1
            · rcases (mem_keysOf key).1 hc2 with ⟨y, hy, hyx⟩
              exact hb2 y hy (hyx ▸ hal x h)
          · refine Or.inr ⟨(hmb x).2 (Or.inl h), ?_⟩
            have hxlt : key x < key lv := hb1 x h
            simp only [keysOf_node, List.mem_append, List.mem_cons]
            rintro (hc | hc | hc)
            · exact hk hc
            · exact absurd hc (ne_of_lt hxlt)
            · rcases (mem_keysOf key).1 hc with ⟨y, hy, hyx⟩
              exact absurd (hyx ▸ har y hy) (asymm hxlt)
        · exact Or.inl ⟨by simp, hknotb⟩
        · rcases (hm2 x).1 hx with ⟨h, hk⟩ | ⟨h, hk⟩
          · refine Or.inl ⟨by simp [h], fun hc => ?_⟩
            rcases (hkeysb (key x)).1 hc with hc1 | hc2
            · rcases (mem_keysOf key).1 hc1 with ⟨y, hy, hyx⟩
              exact absurd (hyx ▸ hb1 y hy) (asymm (har x h))
            · exact hk hc2
          · refine Or.inr ⟨(hmb x).2 (Or.inr h), ?_⟩
            have hxgt : key lv < key x := hs2ne x h
            simp only [keysOf_node, List.mem_append, List.mem_cons]
            rintro (hc | hc | hc)
            · rcases (mem_keysOf key).1 hc with ⟨y, hy, hyx⟩
              exact absurd (hyx ▸ hal y hy) (asymm hxgt)
            · exact absurd hc.symm (ne_of_lt hxgt)
            · exact hk hc
      · rintro (⟨hx, hkb⟩ | ⟨hx, hka⟩)
        · have hk1 : key x ∉
              keysOf key (split key (Tree.node rv rl rr) (key lv)).1 :=
            fun hc => hkb ((hkeysb (key x)).2 (Or.inl hc))
          have hk2 : key x ∉
              keysOf key (split key (Tree.node rv rl rr) (key lv)).2 :=
            fun hc => hkb ((hkeysb (key x)).2 (Or.inr hc))
          simp only [elems_node, List.mem_append, List.mem_cons] at hx ⊢
          rcases hx with hx | rfl | hx
          · exact Or.inl ((hm1 x).2 (Or.inl ⟨hx, hk1⟩))
          · exact Or.inr (Or.inl rfl)
          · exact Or.inr (Or.inr ((hm2 x).2 (Or.inl ⟨hx, hk2⟩)))
        · simp only [keysOf_node, List.mem_append, List.mem_cons,
            not_or] at hka
          obtain ⟨hkll, hklv2, hklr⟩ := hka
          simp only [elems_node, List.mem_append, List.mem_cons]
          rcases (hmb x).1 hx with h | h
          · exact Or.inl ((hm1 x).2 (Or.inr ⟨h, hkll⟩))
          · exact Or.inr (Or.inr ((hm2 x).2 (Or.inr ⟨h, hklr⟩)))
  | case5 lv ll lr rv rl rr hne hrank s ih1 ih2 =>
    intro hva hvb
    have hgoal : set_symmetric key pr
        (Tree.node lv ll lr) (Tree.node rv rl rr) =
        Tree.node rv
          (set_symmetric key pr
            (split key (Tree.node lv ll lr) (key rv)).1 rl)
          (set_symmetric key pr
            (split key (Tree.node lv ll lr) (key rv)).2 rr) := by
      rw [set_symmetric, if_neg hne, hrank]
    have hkrv := (rank_eq_right_iff key pr lv rv).1 hrank
    obtain ⟨hvrl, hvrr, hbl, hbr, hql, hqr⟩ :=
      (valid_node_iff key pr rv rl rr).1 hvb
    obtain ⟨vs1, vs2, hsplit, hb1, hb2⟩ := split_spec key pr (key rv) hva
    have hdom : ∀ x ∈ elems (Tree.node lv ll lr),
        kprec pr (key rv) (key x) := by
      intro x hx
      rcases root_min key pr hva hx with rfl | h
      · exact hkrv
      · exact kprec_trans pr hkrv h
    have hknota : key rv ∉ keysOf key (Tree.node lv ll lr) :=
      not_mem_keys_of_kprec_root key pr hva hkrv
    have hma : ∀ x : β, x ∈ elems (Tree.node lv ll lr) ↔
        x ∈ elems (split key (Tree.node lv ll lr) (key rv)).1 ∨
        x ∈ elems (split key (Tree.node lv ll lr) (key rv)).2 := by
      intro x
      rw [hsplit]
      exact List.mem_append
    have hkeysa : ∀ k : α, k ∈ keysOf key (Tree.node lv ll lr) ↔
        k ∈ keysOf key (split key (Tree.node lv ll lr) (key rv)).1 ∨
        k ∈ keysOf key (split key (Tree.node lv ll lr) (key rv)).2 := by
      intro k
      unfold keysOf
      rw [hsplit]
      simp
    have hs2ne : ∀ x ∈ elems (split key (Tree.node lv ll lr) (key rv)).2,
        key rv < key x := by
      intro x hx
      have h2 : key x ≠ key rv := fun e =>
        hknota (e ▸ mem_keys_of_mem key ((hma x).2 (Or.inr hx)))
      exact lt_of_le_of_ne (not_lt.1 (hb2 x hx)) (Ne.symm h2)
    obtain ⟨hv1, hm1⟩ := ih1 vs1 hvrl
    obtain ⟨hv2, hm2⟩ := ih2 vs2 hvrr
    have hsub1 : ∀ x ∈ elems (set_symmetric key pr
        (split key (Tree.node lv ll lr) (key rv)).1 rl),
        x ∈ elems (split key (Tree.node lv ll lr) (key rv)).1 ∨
        x ∈ elems rl := by
      intro x hx
      rcases (hm1 x).1 hx with ⟨h, _⟩ | ⟨h, _⟩
      · exact Or.inl h
      · exact Or.inr h
    have hsub2 : ∀ x ∈ elems (set_symmetric key pr
        (split key (Tree.node lv ll lr) (key rv)).2 rr),
        x ∈ elems (split key (Tree.node lv ll lr) (key rv)).2 ∨
        x ∈ elems rr := by
      intro x hx
      rcases (hm2 x).1 hx with ⟨h, _⟩ | ⟨h, _⟩
      · exact Or.inl h
      · exact Or.inr h
    rw [hgoal]
    refine ⟨?_, fun x => ?_⟩
    · rw [valid_node_iff]
      refine ⟨hv1, hv2, ?_, ?_, ?_, ?_⟩
      · intro x hx
        rcases hsub1 x hx with h | h
        · exact hb1 x h
        · exact hbl x h
      · intro x hx
        rcases hsub2 x hx with h | h
        · exact hs2ne x h
        · exact hbr x h
      · intro x hx
        rcases hsub1 x hx with h | h
        · exact hdom x ((hma x).2 (Or.inl h))
        · exact hql x h
      · intro x hx
        rcases hsub2 x hx with h | h
        · exact hdom x ((hma x).2 (Or.inr h))
        · exact hqr x h
    · constructor
      · intro hx
        simp only [elems_node, List.mem_append, List.mem_cons] at hx
        rcases hx with hx | rfl | hx
        · rcases (hm1 x).1 hx with ⟨h, hk⟩ | ⟨h, hk⟩
          · refine Or.inl ⟨(hma x).2 (Or.inl h), ?_⟩
            have hxlt : key x < key rv := hb1 x h
            simp only [keysOf_node, List.mem_append, List.mem_cons]
            rintro (hc | hc | hc)
            · exact hk hc
            · exact absurd hc (ne_of_lt hxlt)
            · rcases (mem_keysOf key).1 hc with ⟨y, hy, hyx⟩
              exact absurd (hyx ▸ hbr y hy) (asymm hxlt)
          · refine Or.inr ⟨by simp [h], fun hc => ?_⟩
            rcases (hkeysa (key x)).1 hc with hc1 | hc2
            · exact hk hc1
            · rcases (mem_keysOf key).1 hc2 with ⟨y, hy, hyx⟩
              exact hb2 y hy (hyx ▸ hbl x h)
        · exact Or.inr ⟨by simp, hknota⟩
        · rcases (hm2 x).1 hx with ⟨h, hk⟩ | ⟨h, hk⟩
          · refine Or.inl ⟨(hma x).2 (Or.inr h), ?_⟩
            have hxgt : key rv < key x := hs2ne x h
            simp only [keysOf_node, List.mem_append, List.mem_cons]
            rintro (hc | hc | hc)
            · rcases (mem_keysOf key).1 hc with ⟨y, hy, hyx⟩
              exact absurd (hyx ▸ hbl y hy) (asymm hxgt)
            · exact absurd hc.symm (ne_of_lt hxgt)
            · exact hk hc
          · refine Or.inr ⟨by simp [h], fun hc => ?_⟩
            rcases (hkeysa (key x)).1 hc with hc1 | hc2
            · rcases (mem_keysOf key).1 hc1 with ⟨y, hy, hyx⟩
              exact absurd (hyx ▸ hb1 y hy) (asymm (hbr x h))
            · exact hk hc2
      · rintro (⟨hx, hkb⟩ | ⟨hx, hka⟩)
        · simp only [keysOf_node, List.mem_append, List.mem_cons,
            not_or] at hkb
          obtain ⟨hkrl, hkrv2, hkrr⟩ := hkb
          simp only [elems_node, List.mem_append, List.mem_cons]
          rcases (hma x).1 hx with h | h
          · exact Or.inl ((hm1 x).2 (Or.inl ⟨h, hkrl⟩))
          · exact Or.inr (Or.inr ((hm2 x).2 (Or.inl ⟨h, hkrr⟩)))
        · have hk1 : key x ∉
              keysOf key (split key (Tree.node lv ll lr) (key rv)).1 :=
            fun hc => hka ((hkeysa (key x)).2 (Or.inl hc))
          have hk2 : key x ∉
              keysOf key (split key (Tree.node lv ll lr) (key rv)).2 :=
            fun hc => hka ((hkeysa (key x)).2 (Or.inr hc))
          simp only [elems_node, List.mem_append, List.mem_cons] at hx ⊢
          rcases hx with hx | rfl | hx
          · exact Or.inl ((hm1 x).2 (Or.inr ⟨hx, hk1⟩))
          · exact Or.inr (Or.inl rfl)
          · exact Or.inr (Or.inr ((hm2 x).2 (Or.inr ⟨hx, hk2⟩)))
  | case6 lv ll lr rv rl rr hne hr1 hr2 ih1 ih2 =>
    intro hva hvb
    have hcsame : rank key pr lv rv = Ranking.SAME := by
      cases hc : rank key pr lv rv with
      | LEFT => exact (hr1 hc).elim
      | RIGHT => exact (hr2 hc).elim
      | NOT_SAME => exact (rank_ne_notsame key pr lv rv hc).elim
      | SAME => rfl
    have hsame : key lv = key rv := (rank_eq_same_iff key pr lv rv).1 hcsame
    have hgoal : set_symmetric key pr
        (Tree.node lv ll lr) (Tree.node rv rl rr) =
        join key pr (set_symmetric key pr ll rl)
          (set_symmetric key pr lr rr) := by
      rw [set_symmetric, if_neg hne, hcsame]
    obtain ⟨hvll, hvlr, hal, har, hpl, hpr⟩ :=
      (valid_node_iff key pr lv ll lr).1 hva
    obtain ⟨hvrl, hvrr, hbl, hbr, hql, hqr⟩ :=
      (valid_node_iff key pr rv rl rr).1 hvb
    obtain ⟨hv1, hm1⟩ := ih1 hvll hvrl
    obtain ⟨hv2, hm2⟩ := ih2 hvlr hvrr
    have hsub1 : ∀ x ∈ elems (set_symmetric key pr ll rl),
        x ∈ elems ll ∨ x ∈ elems rl := by
      intro x hx
      rcases (hm1 x).1 hx with ⟨h, _⟩ | ⟨h, _⟩
      · exact Or.inl h
      · exact Or.inr h
    have hsub2 : ∀ x ∈ elems (set_symmetric key pr lr rr),
        x ∈ elems lr ∨ x ∈ elems rr := by
      intro x hx
      rcases (hm2 x).1 hx with ⟨h, _⟩ | ⟨h, _⟩
      · exact Or.inl h
      · exact Or.inr h
    have hlt1 : ∀ x ∈ elems (set_symmetric key pr ll rl),
        key x < key lv := by
      intro x hx
      rcases hsub1 x hx with h | h
      · exact hal x h
      · exact hsame ▸ hbl x h
    have hgt2 : ∀ x ∈ elems (set_symmetric key pr lr rr),
        key lv < key x := by
      intro x hx
      rcases hsub2 x hx with h | h
      · exact har x h
      · exact hsame ▸ hbr x h
    have hsep : ∀ x ∈ elems (set_symmetric key pr ll rl),
        ∀ y ∈ elems (set_symmetric key pr lr rr), key x < key y :=
      fun x hx y hy => (hlt1 x hx).trans (hgt2 y hy)
    obtain ⟨hvj, hej⟩ := join_spec key pr _ _ hv1 hv2 hsep
    rw [hgoal]
    refine ⟨hvj, fun x => ?_⟩
    rw [hej]
    constructor
    · intro hx
      rcases List.mem_append.1 hx with h | h
      · rcases (hm1 x).1 h with ⟨h1, hk⟩ | ⟨h1, hk⟩
        · have hxlt : key x < key rv := hsame ▸ hal x h1
          refine Or.inl ⟨by simp [h1], ?_⟩
          simp only [keysOf_node, List.mem_append, List.mem_cons]
          rintro (hc | hc | hc)
          · exact hk hc
          · exact absurd hc (ne_of_lt hxlt)
          · rcases (mem_keysOf key).1 hc with ⟨y, hy, hyx⟩
            exact absurd (hyx ▸ hbr y hy) (asymm hxlt)
        · have hxlt : key x < key lv := hsame ▸ hbl x h1
          refine Or.inr ⟨by simp [h1], ?_⟩
          simp only [keysOf_node, List.mem_append, List.mem_cons]
          rintro (hc | hc | hc)
          · exact hk hc
          · exact absurd hc (ne_of_lt hxlt)
          · rcases (mem_keysOf key).1 hc with ⟨y, hy, hyx⟩
            exact absurd (hyx ▸ har y hy) (asymm hxlt)
      · rcases (hm2 x).1 h with ⟨h1, hk⟩ | ⟨h1, hk⟩
        · have hxgt : key rv < key x := hsame ▸ har x h1
          refine Or.inl ⟨by simp [h1], ?_⟩
          simp only [keysOf_node, List.mem_append, List.mem_cons]
          rintro (hc | hc | hc)
          · rcases (mem_keysOf key).1 hc with ⟨y, hy, hyx⟩
            exact absurd (hyx ▸ hbl y hy) (asymm hxgt)
          · exact absurd hc.symm (ne_of_lt hxgt)
          · exact hk hc
        · have hxgt : key lv < key x := hsame ▸ hbr x h1
          refine Or.inr ⟨by simp [h1], ?_⟩
          simp only [keysOf_node, List.mem_append, List.mem_cons]
          rintro (hc | hc | hc)
          · rcases (mem_keysOf key).1 hc with ⟨y, hy, hyx⟩
            exact absurd (hyx ▸ hal y hy) (asymm hxgt)
          · exact absurd hc.symm (ne_of_lt hxgt)
          · exact hk hc
    · rintro (⟨hx, hkb⟩ | ⟨hx, hka⟩)
      · simp only [keysOf_node, List.mem_append, List.mem_cons,
          not_or] at hkb
        obtain ⟨hkrl, hkrv2, hkrr⟩ := hkb
        simp only [elems_node, List.mem_append, List.mem_cons] at hx
        rcases hx with hx | rfl | hx
        · exact List.mem_append_left _ ((hm1 x).2 (Or.inl ⟨hx, hkrl⟩))
        · exact absurd hsame hkrv2
        · exact List.mem_append_right _ ((hm2 x).2 (Or.inl ⟨hx, hkrr⟩))
      · simp only [keysOf_node, List.mem_append, List.mem_cons,
          not_or] at hka
        obtain ⟨hkll, hklv2, hklr⟩ := hka
        simp only [elems_node, List.mem_append, List.mem_cons] at hx
        rcases hx with hx | rfl | hx
        · exact List.mem_append_left _ ((hm1 x).2 (Or.inr ⟨hx, hkll⟩))
        · exact absurd hsame.symm hklv2
        · exact List.mem_append_right _ ((hm2 x).2 (Or.inr ⟨hx, hklr⟩))

theorem nodup_length_le {l1 l2 : List α} (h1 : l1.Nodup) (hs : l1 ⊆ l2) :
    l1.length ≤ l2.length := by
  calc l1.length = l1.toFinset.card := (List.toFinset_card_of_nodup h1).symm
    _ ≤ l2.toFinset.card := Finset.card_le_card fun k hk =>
        List.mem_toFinset.2 (hs (List.mem_toFinset.1 hk))
    _ ≤ l2.length := l2.toFinset_card_le

theorem length_keysOf (t : Tree β) : (keysOf key t).length = size t := by
  rw [keysOf, List.length_map, size_eq_length]

/-- Specification of internal::includes when ranked by internal::rank:
it decides containment of the key set of the right input in the key set
of the left input. -/
theorem includes_spec : ∀ a b : Tree β, Valid key pr a → Valid key pr b →
    (includesT key (rank key pr) a b = true ↔
      ∀ k ∈ keysOf key b, k ∈ keysOf key a) := by
  intro a b
  induction a, b using includesT.induct key (rank key pr) with
  | case1 l =>
    intro _ _
    simp [includesT]
  | case2 rv rl rr =>
    intro _ _
    rw [includesT]
    refine iff_of_false (by simp) fun h => ?_
    simpa using h (key rv) (by simp)
  | case3 lv ll lr rv rl rr heq =>
    intro _ _
    rw [includesT, if_pos heq, ← heq]
    simp
  | case4 lv ll lr rv rl rr hne hsz =>
    intro hva hvb
    rw [includesT, if_neg hne, if_pos hsz]
    refine iff_of_false (by simp) fun h => ?_
    have hlen := nodup_length_le (keys_nodup key hvb.1) fun k hk => h k hk
    rw [length_keysOf, length_keysOf] at hlen
    omega
  | case5 lv ll lr rv rl rr hne hsz hrank s ih1 ih2 =>
    intro hva hvb
    have hgoal : includesT key (rank key pr)
        (Tree.node lv ll lr) (Tree.node rv rl rr) =
        (includesT key (rank key pr) ll
            (split key (Tree.node rv rl rr) (key lv)).1 &&
          includesT key (rank key pr) lr
            (split key (Tree.node rv rl rr) (key lv)).2) := by
      rw [includesT, if_neg hne, if_neg hsz, hrank]
    have hklv := (rank_eq_left_iff key pr lv rv).1 hrank
    obtain ⟨hvll, hvlr, hal, har, hpl, hpr⟩ :=
      (valid_node_iff key pr lv ll lr).1 hva
    obtain ⟨vs1, vs2, hsplit, hb1, hb2⟩ := split_spec key pr (key lv) hvb
    have hknotb : key lv ∉ keysOf key (Tree.node rv rl rr) :=
      not_mem_keys_of_kprec_root key pr hvb hklv
    have hkeysb : ∀ k : α, k ∈ keysOf key (Tree.node rv rl rr) ↔
        k ∈ keysOf key (split key (Tree.node rv rl rr) (key lv)).1 ∨
        k ∈ keysOf key (split key (Tree.node rv rl rr) (key lv)).2 := by
      intro k
      unfold keysOf
      rw [hsplit]
      simp
    have hk1lt : ∀ k ∈ keysOf key (split key (Tree.node rv rl rr) (key lv)).1,
        k < key lv := by
      intro k hk
      rcases (mem_keysOf key).1 hk with ⟨y, hy, hyx⟩
      exact hyx ▸ hb1 y hy
    have hk2gt : ∀ k ∈ keysOf key (split key (Tree.node rv rl rr) (key lv)).2,
        key lv < k := by
      intro k hk
      have hne2 : k ≠ key lv := fun e =>
        hknotb (e ▸ (hkeysb k).2 (Or.inr hk))
      rcases (mem_keysOf key).1 hk with ⟨y, hy, hyx⟩
      exact lt_of_le_of_ne (not_lt.1 (hyx ▸ hb2 y hy)) (Ne.symm hne2)
    rw [hgoal, Bool.and_eq_true, ih1 hvll vs1, ih2 hvlr vs2]
    constructor
    · rintro ⟨h1, h2⟩ k hk
      rcases (hkeysb k).1 hk with hk | hk
      · simpa using Or.inl (h1 k hk)
      · simpa using Or.inr (Or.inr (h2 k hk))
    · intro h
      constructor
      · intro k hk
        have hklt := hk1lt k hk
        have hka := h k ((hkeysb k).2 (Or.inl hk))
        simp only [keysOf_node, List.mem_append, List.mem_cons] at hka
        rcases hka with hka | hka | hka
        · exact hka
        · exact absurd hka (ne_of_lt hklt)
        · rcases (mem_keysOf key).1 hka with ⟨y, hy, hyx⟩
          exact absurd (hyx ▸ har y hy) (asymm hklt)
      · intro k hk
        have hkgt := hk2gt k hk
        have hka := h k ((hkeysb k).2 (Or.inr hk))
        simp only [keysOf_node, List.mem_append, List.mem_cons] at hka
        rcases hka with hka | hka | hka
        · rcases (mem_keysOf key).1 hka with ⟨y, hy, hyx⟩
          exact absurd (hyx ▸ hal y hy) (asymm hkgt)
        · exact absurd hka.symm (ne_of_lt hkgt)
        · exact hka
  | case6 lv ll lr rv rl rr hne hsz hrank ih1 ih2 =>
    intro hva hvb
    have hsame : key lv = key rv := (rank_eq_same_iff key pr lv rv).1 hrank
    have hgoal : includesT key (rank key pr)
        (Tree.node lv ll lr) (Tree.node rv rl rr) =
        (includesT key (rank key pr) ll rl &&
          includesT key (rank key pr) lr rr) := by
      rw [includesT, if_neg hne, if_neg hsz, hrank]
    obtain ⟨hvll, hvlr, hal, har, hpl, hpr⟩ :=
      (valid_node_iff key pr lv ll lr).1 hva
    obtain ⟨hvrl, hvrr, hbl, hbr, hql, hqr⟩ :=
      (valid_node_iff key pr rv rl rr).1 hvb
    rw [hgoal, Bool.and_eq_true, ih1 hvll hvrl, ih2 hvlr hvrr]
    constructor
    · rintro ⟨h1, h2⟩ k hk
      simp only [keysOf_node, List.mem_append, List.mem_cons] at hk
      rcases hk with hk | hk | hk
      · simpa using Or.inl (h1 k hk)
      · simp [hk, ← hsame]
      · simpa using Or.inr (Or.inr (h2 k hk))
    · intro h
      constructor
      · intro k hk
        have hklt : k < key lv := by
          rcases (mem_keysOf key).1 hk with ⟨y, hy, hyx⟩
          exact hsame ▸ hyx ▸ hbl y hy
        have hka := h k (by simp [hk])
        simp only [keysOf_node, List.mem_append, List.mem_cons] at hka
        rcases hka with hka | hka | hka
        · exact hka
        · exact absurd hka (ne_of_lt hklt)
        · rcases (mem_keysOf key).1 hka with ⟨y, hy, hyx⟩
          exact absurd (hyx ▸ har y hy) (asymm hklt)
      · intro k hk
        have hkgt : key lv < k := by
          rcases (mem_keysOf key).1 hk with ⟨y, hy, hyx⟩
          exact hsame ▸ hyx ▸ hbr y hy
        have hka := h k (by simp [hk])
        simp only [keysOf_node, List.mem_append, List.mem_cons] at hka
        rcases hka with hka | hka | hka
        · rcases (mem_keysOf key).1 hka with ⟨y, hy, hyx⟩
          exact absurd (hyx ▸ hal y hy) (asymm hkgt)
        · exact absurd hka.symm (ne_of_lt hkgt)
        · exact hka
  | case7 lv ll lr rv rl rr hne hsz hr1 hr2 =>
    intro hva hvb
    have hkrv : kprec pr (key rv) (key lv) := by
      cases hc : rank key pr lv rv with
      | LEFT => exact (hr1 hc).elim
      | SAME => exact (hr2 hc).elim
      | NOT_SAME => exact (rank_ne_notsame key pr lv rv hc).elim
      | RIGHT => exact (rank_eq_right_iff key pr lv rv).1 hc
    have hknota : key rv ∉ keysOf key (Tree.node lv ll lr) :=
      not_mem_keys_of_kprec_root key pr hva hkrv
    have hgoal : includesT key (rank key pr)
        (Tree.node lv ll lr) (Tree.node rv rl rr) = false := by
      rw [includesT, if_neg hne, if_neg hsz]
      cases hc : rank key pr lv rv with
      | LEFT => exact (hr1 hc).elim
      | SAME => exact (hr2 hc).elim
      | NOT_SAME => rfl
      | RIGHT => rfl
    rw [hgoal]
    refine iff_of_false (by simp) fun h => ?_
    exact hknota (h (key rv) (by simp))

theorem eraseP_false_of_lt {t : Tree β} {k : α} (hb : BST key t)
    (hlt : ∀ kk ∈ keysOf key t, kk < k) :
    (eraseP key pr t k).2 = false := by
  induction t with
  | nil => simp [eraseP]
  | node v l r ihl ihr =>
    rcases hb with ⟨hl, hr, bl, br⟩
    have hvk : key v < k := hlt (key v) (by simp)
    have hr2 : (eraseP key pr r k).2 = false := by
      refine ihr br fun kk hk => hlt kk ?_
      simp [hk]
    simp only [eraseP, if_pos hvk, hr2]
    simp

theorem eraseP_false {t : Tree β} {k : α} (hb : BST key t)
    (h : (eraseP key pr t k).2 = false) : k ∉ keysOf key t := by
  induction t with
  | nil => simp
  | node v l r ihl ihr =>
    rcases hb with ⟨hl, hr, bl, br⟩
    by_cases hc : key v < k
    · rcases hs : (eraseP key pr r k).2 with _ | _
      · have hkr := ihr br hs
        simp only [keysOf_node, List.mem_append, List.mem_cons]
        rintro (hk | hk | hk)
        · rcases (mem_keysOf key).1 hk with ⟨y, hy, hyx⟩
          have h1 : key y < k := (hl y hy).trans hc
          exact absurd (hyx ▸ h1) (lt_irrefl k)
        · exact absurd (hk ▸ hc) (lt_irrefl k)
        · exact hkr hk
      · simp only [eraseP, if_pos hc, hs] at h
        simp at h
    · exfalso
      simp only [eraseP, if_neg hc] at h
      rcases hs : (eraseP key pr l k).2 with _ | _
      · rw [hs] at h
        by_cases hv : key v = k <;> simp [hv] at h
      · rw [hs] at h
        simp at h

/-- Specification of the key-erase helper: the rebuilt subtree is
canonical and holds exactly the values whose key differs from the erased
key. -/
theorem eraseP_spec {t : Tree β} (k : α) (hv : Valid key pr t) :
    Valid key pr (eraseP key pr t k).1 ∧
    ∀ x, x ∈ elems (eraseP key pr t k).1 ↔
      x ∈ elems t ∧ key x ≠ k := by
  induction t with
  | nil => simp [eraseP]
  | node v l r ihl ihr =>
    obtain ⟨hvl, hvr, hal, har, hpl, hpr⟩ :=
      (valid_node_iff key pr v l r).1 hv
    by_cases hc : key v < k
    · rcases hs : (eraseP key pr r k).2 with _ | _
      · have hres : (eraseP key pr (Tree.node v l r) k).1 =
            Tree.node v l r := by
          simp only [eraseP, if_pos hc, hs]
          simp
        have hnk : k ∉ keysOf key (Tree.node v l r) := by
          refine eraseP_false key pr (And.intro hal (And.intro har
            (And.intro hvl.1 hvr.1))) ?_
          simp only [eraseP, if_pos hc, hs]
          simp
        rw [hres]
        refine ⟨hv, fun x => ?_⟩
        constructor
        · intro hx
          exact ⟨hx, fun e => hnk (e ▸ mem_keys_of_mem key hx)⟩
        · exact fun h => h.1
      · obtain ⟨hv2, hm2⟩ := ihr hvr
        have hres : (eraseP key pr (Tree.node v l r) k).1 =
            Tree.node v l (eraseP key pr r k).1 := by
          simp only [eraseP, if_pos hc, hs]
          simp
        have hsub : ∀ x ∈ elems (eraseP key pr r k).1, x ∈ elems r :=
          fun x hx => ((hm2 x).1 hx).1
        rw [hres]
        refine ⟨?_, fun x => ?_⟩
        · rw [valid_node_iff]
          exact ⟨hvl, hv2, hal, fun x hx => har x (hsub x hx), hpl,
            fun x hx => hpr x (hsub x hx)⟩
        · constructor
          · intro hx
            simp only [elems_node, List.mem_append, List.mem_cons] at hx ⊢
            rcases hx with hx | rfl | hx
            · exact ⟨Or.inl hx, ne_of_lt ((hal x hx).trans hc)⟩
            · exact ⟨Or.inr (Or.inl rfl), ne_of_lt hc⟩
            · obtain ⟨h1, h2⟩ := (hm2 x).1 hx
              exact ⟨Or.inr (Or.inr h1), h2⟩
          · rintro ⟨hx, hk⟩
            simp only [elems_node, List.mem_append, List.mem_cons]
              at hx ⊢
            rcases hx with hx | rfl | hx
            · exact Or.inl hx
            · exact Or.inr (Or.inl rfl)
            · exact Or.inr (Or.inr ((hm2 x).2 ⟨hx, hk⟩))
    · rcases hs : (eraseP key pr l k).2 with _ | _
      · by_cases hveq : key v = k
        · have hres : (eraseP key pr (Tree.node v l r) k).1 =
              join key pr l r := by
            simp only [eraseP, if_neg hc, hs, if_pos hveq]
            simp
          have hsep : ∀ x ∈ elems l, ∀ y ∈ elems r, key x < key y :=
            fun x hx y hy => (hal x hx).trans (har y hy)
          obtain ⟨hvj, hej⟩ := join_spec key pr _ _ hvl hvr hsep
          rw [hres]
          refine ⟨hvj, fun x => ?_⟩
          rw [hej]
          constructor
          · intro hx
            rcases List.mem_append.1 hx with h | h
            · exact ⟨by simp [h], hveq ▸ ne_of_lt (hal x h)⟩
            · exact ⟨by simp [h], hveq ▸ (ne_of_lt (har x h)).symm⟩
          · rintro ⟨hx, hk⟩
            simp only [elems_node, List.mem_append, List.mem_cons] at hx
            rcases hx with hx | rfl | hx
            · exact List.mem_append_left _ hx
            · exact absurd hveq hk
            · exact List.mem_append_right _ hx
        · have hres : (eraseP key pr (Tree.node v l r) k).1 =
              Tree.node v l r := by
            simp only [eraseP, if_neg hc, hs, if_neg hveq]
            simp
          have hkl : k ∉ keysOf key l :=
            eraseP_false key pr hvl.1 hs
          have hklt : k < key v :=
            lt_of_le_of_ne (not_lt.1 hc) (Ne.symm hveq)
          rw [hres]
          refine ⟨hv, fun x => ?_⟩
          constructor
          · intro hx
            refine ⟨hx, fun e => ?_⟩
            simp only [elems_node, List.mem_append, List.mem_cons] at hx
            rcases hx with hx | rfl | hx
            · exact hkl (e ▸ mem_keys_of_mem key hx)
            · exact hveq e
            · exact absurd (e ▸ har x hx) (asymm hklt)
          · exact fun h => h.1
      · obtain ⟨hv2, hm2⟩ := ihl hvl
        have hres : (eraseP key pr (Tree.node v l r) k).1 =
            Tree.node v (eraseP key pr l k).1 r := by
          simp only [eraseP, if_neg hc, hs]
          simp
        have hsub : ∀ x ∈ elems (eraseP key pr l k).1, x ∈ elems l :=
          fun x hx => ((hm2 x).1 hx).1
        have hvne : key v ≠ k := by
          intro e
          have hall : ∀ kk ∈ keysOf key l, kk < k := by
            intro kk hk
            rcases (mem_keysOf key).1 hk with ⟨y, hy, hyx⟩
            exact e ▸ hyx ▸ hal y hy
          have := eraseP_false_of_lt key pr hvl.1 hall
          rw [this] at hs
          cases hs
        have hklt : k < key v :=
          lt_of_le_of_ne (not_lt.1 hc) (Ne.symm hvne)
        rw [hres]
        refine ⟨?_, fun x => ?_⟩
        · rw [valid_node_iff]
          exact ⟨hv2, hvr, fun x hx => hal x (hsub x hx), har,
            fun x hx => hpl x (hsub x hx), hpr⟩
        · constructor
          · intro hx
            simp only [elems_node, List.mem_append, List.mem_cons] at hx ⊢
            rcases hx with hx | rfl | hx
            · obtain ⟨h1, h2⟩ := (hm2 x).1 hx
              exact ⟨Or.inl h1, h2⟩
            · exact ⟨Or.inr (Or.inl rfl), hvne⟩
            · exact ⟨Or.inr (Or.inr hx),
                (ne_of_lt (hklt.trans (har x hx))).symm⟩
          · rintro ⟨hx, hk⟩
            simp only [elems_node, List.mem_append, List.mem_cons]
              at hx ⊢
            rcases hx with hx | rfl | hx
            · exact Or.inl ((hm2 x).2 ⟨hx, hk⟩)
            · exact Or.inr (Or.inl rfl)
            · exact Or.inr (Or.inr hx)

/-- Lift a canonical node over a subset replacement of one child. -/
theorem valid_node_sub {v : β} {l r l2 r2 : Tree β}
    (hv : Valid key pr (Tree.node v l r))
    (hvl : Valid key pr l2) (hvr : Valid key pr r2)
    (hsl : ∀ x ∈ elems l2, x ∈ elems l)
    (hsr : ∀ x ∈ elems r2, x ∈ elems r) :
    Valid key pr (Tree.node v l2 r2) := by
  obtain ⟨_, _, hal, har, hpl, hpr⟩ := (valid_node_iff key pr v l r).1 hv
  rw [valid_node_iff]
  exact ⟨hvl, hvr, fun x hx => hal x (hsl x hx),
    fun x hx => har x (hsr x hx), fun x hx => hpl x (hsl x hx),
    fun x hx => hpr x (hsr x hx)⟩

/-- Specification of internal::tail: it retains the values from the
given position on. -/
theorem tailT_spec : ∀ (t : Tree β) (n : Nat), Valid key pr t →
    n ≤ size t →
    Valid key pr (tailT t n) ∧
    elems (tailT t n) = (elems t).drop n := by
  intro t
  induction t with
  | nil =>
    intro n _ hn
    simp [tailT]
  | node v l r ihl ihr =>
    intro n hv hn
    obtain ⟨hvl, hvr, hal, har, hpl, hpr⟩ :=
      (valid_node_iff key pr v l r).1 hv
    by_cases h1 : size l < n
    · have hn2 : n - size l - 1 ≤ size r := by
        simp only [size_node] at hn
        omega
      obtain ⟨hv2, he2⟩ := ihr (n - size l - 1) hvr hn2
      have hres : tailT (Tree.node v l r) n = tailT r
          (n - size l - 1) := by
        rw [tailT, if_pos h1]
      have hsplitn : n = (elems l).length + (n - size l - 1 + 1) := by
        rw [← size_eq_length]
        omega
      rw [hres]
      refine ⟨hv2, ?_⟩
      rw [he2, elems_node]
      conv_rhs => rw [hsplitn]
      rw [List.drop_append, List.drop_succ_cons]
    · by_cases h0 : n = 0
      · subst h0
        have hres : tailT (Tree.node v l r) 0 = Tree.node v l r := by
          rw [tailT, if_neg h1]
          simp
        rw [hres]
        exact ⟨hv, by simp⟩
      · have hnl : n ≤ size l := by omega
        obtain ⟨hv2, he2⟩ := ihl n hvl hnl
        have hres : tailT (Tree.node v l r) n =
            Tree.node v (tailT l n) r := by
          rw [tailT, if_neg h1, if_neg h0]
          simp
        rw [hres]
        refine ⟨?_, ?_⟩
        · exact valid_node_sub key pr hv hv2 hvr
            (fun x hx => by
              rw [he2] at hx
              exact List.drop_subset n (elems l) hx)
            (fun x hx => hx)
        · rw [elems_node, elems_node, he2,
            List.drop_append_of_le_length (by rw [← size_eq_length]; exact hnl)]

/-- Specification of internal::head: it retains the values before the
given position. -/
theorem headT_spec : ∀ (t : Tree β) (n : Nat), Valid key pr t →
    n ≤ size t →
    Valid key pr (headT t n) ∧
    elems (headT t n) = (elems t).take n := by
  intro t
  induction t with
  | nil =>
    intro n _ hn
    simp [headT]
  | node v l r ihl ihr =>
    intro n hv hn
    obtain ⟨hvl, hvr, hal, har, hpl, hpr⟩ :=
      (valid_node_iff key pr v l r).1 hv
    by_cases h1 : n ≤ size l
    · obtain ⟨hv2, he2⟩ := ihl n hvl h1
      have hres : headT (Tree.node v l r) n = headT l n := by
        rw [headT, if_pos h1]
      rw [hres]
      refine ⟨hv2, ?_⟩
      rw [he2, elems_node,
        List.take_append_of_le_length (by rw [← size_eq_length]; exact h1)]
    · by_cases h2 : n = size (Tree.node v l r)
      · have hres : headT (Tree.node v l r) n = Tree.node v l r := by
          rw [headT, if_neg h1, if_pos h2]
        rw [hres]
        refine ⟨hv, ?_⟩
        rw [h2, size_eq_length, List.take_length]
      · have hn2 : n - size l - 1 ≤ size r := by
          simp only [size_node] at hn h2
          omega
        obtain ⟨hv2, he2⟩ := ihr (n - size l - 1) hvr hn2
        have hres : headT (Tree.node v l r) n =
            Tree.node v l (headT r (n - size l - 1)) := by
          rw [headT, if_neg h1, if_neg h2]
          simp
        have hsplitn : n = (elems l).length + (n - size l - 1 + 1) := by
          rw [← size_eq_length]
          omega
        rw [hres]
        refine ⟨?_, ?_⟩
        · exact valid_node_sub key pr hv hvl hv2
            (fun x hx => hx)
            (fun x hx => by
              rw [he2] at hx
              exact List.take_subset _ (elems r) hx)
        · rw [elems_node, elems_node, he2]
          conv_rhs => rw [hsplitn]
          rw [List.take_append, List.take_succ_cons]

/-- Key-level membership in a union. -/
theorem union_keys {a b : Tree β} (hva : Valid key pr a)
    (hvb : Valid key pr b) :
    ∀ k, k ∈ keysOf key (set_union key pr a b) ↔
      k ∈ keysOf key a ∨ k ∈ keysOf key b := by
  intro k
  obtain ⟨_, hm⟩ := union_spec key pr a b hva hvb
  constructor
  · intro hk
    rcases (mem_keysOf key).1 hk with ⟨x, hx, rfl⟩
    rcases (hm x).1 hx with h | ⟨h, _⟩
    · exact Or.inl (mem_keys_of_mem key h)
    · exact Or.inr (mem_keys_of_mem key h)
  · rintro (hk | hk)
    · rcases (mem_keysOf key).1 hk with ⟨x, hx, rfl⟩
      exact mem_keys_of_mem key ((hm x).2 (Or.inl hx))
    · rcases (mem_keysOf key).1 hk with ⟨x, hx, rfl⟩
      by_cases ha : key x ∈ keysOf key a
      · rcases (mem_keysOf key).1 ha with ⟨y, hy, hyx⟩
        exact hyx ▸ mem_keys_of_mem key ((hm y).2 (Or.inl hy))
      · exact mem_keys_of_mem key ((hm x).2 (Or.inr ⟨hx, ha⟩))

theorem buildAux_consume : ∀ (d : Nat) (l : List β),
    (buildAux key pr d l).2.length = l.length - min l.length (2 ^ d) := by
  intro d
  induction d with
  | zero =>
    intro l
    cases l with
    | nil => simp [buildAux]
    | cons x xs => simp [buildAux]
  | succ d ih =>
    intro l
    cases l with
    | nil => simp [buildAux]
    | cons x xs =>
      have hpow : 2 ^ (d + 1) = 2 ^ d + 2 ^ d := by
        rw [pow_succ]
        omega
      have ihs := ih (x :: xs)
      rcases hs2 : (buildAux key pr d (x :: xs)).2 with _ | ⟨y, ys⟩
      · have hres : (buildAux key pr (d + 1) (x :: xs)).2 = [] := by
          simp only [buildAux, hs2]
        rw [hs2] at ihs
        simp only [List.length_nil] at ihs
        rw [hres]
        simp only [List.length_nil]
        omega
      · have hres : (buildAux key pr (d + 1) (x :: xs)).2 =
            (buildAux key pr d (y :: ys)).2 := by
          simp only [buildAux, hs2]
        have ihb := ih (y :: ys)
        rw [hres, ihb]
        rw [hs2] at ihs
        simp only [List.length_cons] at ihs ⊢
        omega

theorem buildAux_spec : ∀ (d : Nat) (l : List β),
    Valid key pr (buildAux key pr d l).1 ∧
    ∀ k : α, (k ∈ keysOf key (buildAux key pr d l).1 ∨
        k ∈ (buildAux key pr d l).2.map key) ↔ k ∈ l.map key := by
  intro d
  induction d with
  | zero =>
    intro l
    cases l with
    | nil => simp [buildAux]
    | cons x xs =>
      refine ⟨?_, fun k => ?_⟩
      · simp only [buildAux]
        rw [valid_node_iff]
        simp
      · simp only [buildAux, keysOf_node, keysOf_nil]
        simp [or_comm]
  | succ d ih =>
    intro l
    cases l with
    | nil => simp [buildAux]
    | cons x xs =>
      obtain ⟨ihv, ihm⟩ := ih (x :: xs)
      rcases hs2 : (buildAux key pr d (x :: xs)).2 with _ | ⟨y, ys⟩
      · have hres : buildAux key pr (d + 1) (x :: xs) =
            ((buildAux key pr d (x :: xs)).1, []) := by
          simp only [buildAux, hs2]
        rw [hres]
        refine ⟨ihv, fun k => ?_⟩
        have := ihm k
        rw [hs2] at this
        simpa using this
      · obtain ⟨ihv2, ihm2⟩ := ih (y :: ys)
        have hres : buildAux key pr (d + 1) (x :: xs) =
            (set_union key pr (buildAux key pr d (x :: xs)).1
              (buildAux key pr d (y :: ys)).1,
             (buildAux key pr d (y :: ys)).2) := by
          simp only [buildAux, hs2]
        rw [hres]
        obtain ⟨hvu, _⟩ :=
          union_spec key pr _ _ ihv ihv2
        refine ⟨hvu, fun k => ?_⟩
        rw [union_keys key pr ihv ihv2 k]
        have h1 := ihm k
        have h2 := ihm2 k
        rw [hs2] at h1
        constructor
        · rintro ((hk | hk) | hk)
          · exact h1.1 (Or.inl hk)
          · exact h1.1 (Or.inr (by simpa using h2.1 (Or.inl hk)))
          · exact h1.1 (Or.inr (by simpa using h2.1 (Or.inr hk)))
        · intro hk
          rcases h1.2 hk with hk2 | hk2
          · exact Or.inl (Or.inl hk2)
          · rcases h2.2 (by simpa using hk2) with hk3 | hk3
            · exact Or.inl (Or.inr hk3)
            · exact Or.inr hk3

theorem buildT_valid (l : List β) : Valid key pr (buildT key pr l) :=
  (buildAux_spec key pr l.length l).1

theorem buildT_snd (l : List β) :
    (buildAux key pr l.length l).2 = [] := by
  have h := buildAux_consume key pr l.length l
  have hlt : l.length ≤ 2 ^ l.length := Nat.le_of_lt (Nat.lt_two_pow _)
  refine List.length_eq_zero.1 ?_
  omega

theorem buildT_keys (l : List β) :
    ∀ k, k ∈ keysOf key (buildT key pr l) ↔ k ∈ l.map key := by
  intro k
  have h := (buildAux_spec key pr l.length l).2 k
  rw [buildT_snd key pr l] at h
  simpa [buildT] using h

theorem lowerB_mem {p : β → Bool} :
    ∀ {t : Tree β} {b : β}, lowerB p t = some b → b ∈ elems t := by
  intro t
  induction t with
  | nil => simp [lowerB]
  | node v l r ihl ihr =>
    intro b h
    simp only [lowerB] at h
    by_cases hp : p v
    · rw [if_pos hp] at h
      simp only [elems_node, List.mem_append, List.mem_cons]
      exact Or.inr (Or.inr (ihr h))
    · rw [if_neg hp] at h
      rcases hlb : lowerB p l with _ | c
      · rw [hlb] at h
        simp only [Option.getD_none, Option.some.injEq] at h
        subst h
        simp
      · rw [hlb] at h
        simp only [Option.getD_some, Option.some.injEq] at h
        subst h
        simp only [elems_node, List.mem_append, List.mem_cons]
        exact Or.inl (ihl hlb)

theorem lowerB_none {p : β → Bool} :
    ∀ {t : Tree β}, (∀ x ∈ elems t, p x = true) → lowerB p t = none := by
  intro t
  induction t with
  | nil => simp [lowerB]
  | node v l r ihl ihr =>
    intro h
    have hv : p v = true := h v (by simp)
    simp only [lowerB, if_pos hv]
    exact ihr fun x hx => h x (by simp [hx])

/-- Specification of internal::lower_bound with the comparer used by
map::at: on a canonical tree holding a value with the searched key, it
returns exactly that value. -/
theorem lowerB_found {t : Tree β} (hb : BST key t) {x0 : β} {k : α}
    (hx : x0 ∈ elems t) (hk : key x0 = k) :
    lowerB (fun b => decide (key b < k)) t = some x0 := by
  induction t with
  | nil => simp at hx
  | node v l r ihl ihr =>
    rcases hb with ⟨hl, hr, bl, br⟩
    simp only [elems_node, List.mem_append, List.mem_cons] at hx
    by_cases hc : key v < k
    · rw [lowerB, if_pos (by simpa using hc)]
      rcases hx with hx | rfl | hx
      · exact absurd (hk ▸ (hl x0 hx).trans hc) (lt_irrefl _)
      · exact absurd hc (hk ▸ lt_irrefl _)
      · exact ihr br hx
    · rw [lowerB, if_neg (by simpa using hc)]
      by_cases hveq : key v = k
      · have hx0 : x0 = v := by
          rcases hx with hx | rfl | hx
          · exact absurd (hveq ▸ hl x0 hx) (hk ▸ lt_irrefl _)
          · rfl
          · exact absurd (hveq ▸ hr x0 hx) (hk ▸ lt_irrefl _)
        have hnone : lowerB (fun b => decide (key b < k)) l = none := by
          refine lowerB_none fun x hxl => ?_
          simp only [decide_eq_true_eq]
          exact hveq ▸ hl x hxl
        rw [hnone]
        simp [hx0]
      · have hklt : k < key v := lt_of_le_of_ne (not_lt.1 hc) (Ne.symm hveq)
        have hx0l : x0 ∈ elems l := by
          rcases hx with hx | rfl | hx
          · exact hx
          · exact absurd hk hveq
          · exact absurd (hk ▸ hr x0 hx) (asymm hklt)
        rw [ihl bl hx0l]
        simp

/-- The per-edge form of invariant I2: the priority of a node is at most
the priority of each child, ties broken by the key comparator. -/
def edgeOk (v : β) : Tree β → Prop
  | .nil => True
  | .node w _ _ =>
    pr (key v) ≤ pr (key w) ∧ (pr (key v) = pr (key w) → key v < key w)

/-- Invariant I2 as stated by the specification, at every node. -/
def I2 : Tree β → Prop
  | .nil => True
  | .node v l r => edgeOk key pr v l ∧ edgeOk key pr v r ∧ I2 l ∧ I2 r

theorem edgeOk_of_kprec {v : β} {c : Tree β}
    (h : ∀ x ∈ elems c, kprec pr (key v) (key x)) : edgeOk key pr v c := by
  cases c with
  | nil => trivial
  | node w a b =>
    have hw := h w (by simp)
    unfold kprec at hw
    rcases hw with hw | ⟨he, hlt⟩
    · exact ⟨le_of_lt hw, fun e => by omega⟩
    · exact ⟨le_of_eq he, fun _ => hlt⟩

theorem I2_of_valid : ∀ {t : Tree β}, Valid key pr t → I2 key pr t := by
  intro t
  induction t with
  | nil => intro _; trivial
  | node v l r ihl ihr =>
    intro hv
    obtain ⟨hvl, hvr, _, _, hpl, hpr⟩ := (valid_node_iff key pr v l r).1 hv
    exact ⟨edgeOk_of_kprec key pr hpl, edgeOk_of_kprec key pr hpr,
      ihl hvl, ihr hvr⟩

/-- The trees reachable through the public container operations modeled
in this development: empty containers, bulk construction from a range,
insertion of a value, a range or a container (all reduce to a union with
a built tree), erase by key, the four merge algorithms, and the
positional range operations erase(first, last) and retain(first, last)
of the facade (set.h, lines 637-645 and 707-716). -/
inductive Built : Tree β → Prop where
  | empty : Built .nil
  | ofList (l : List β) : Built (buildT key pr l)
  | insertSet {t u : Tree β} : Built t → Built u →
      Built (set_union key pr t u)
  | eraseKey {t : Tree β} (k : α) : Built t →
      Built (eraseP key pr t k).1
  | eraseSet {t u : Tree β} : Built t → Built u →
      Built (set_difference key pr (rank key pr) t u)
  | retainSet {t u : Tree β} : Built t → Built u →
      Built (set_intersection key pr (rank key pr) t u)
  | symSet {t u : Tree β} : Built t → Built u →
      Built (set_symmetric key pr t u)
  | eraseRange {t : Tree β} (a b : Nat) : Built t → a ≤ b → b ≤ size t →
      Built (join key pr (headT t a) (tailT t b))
  | retainRange {t : Tree β} (a b : Nat) : Built t → a ≤ b → b ≤ size t →
      Built (tailT (headT t b) a)

/-- Every reachable tree is canonical: the public operations preserve the
search invariant I1 and the heap invariant I2. -/
theorem built_valid : ∀ {t : Tree β}, Built key pr t → Valid key pr t := by
  intro t h
  induction h with
  | empty => exact valid_nil key pr
  | ofList l => exact buildT_valid key pr l
  | insertSet h1 h2 ih1 ih2 => exact (union_spec key pr _ _ ih1 ih2).1
  | eraseKey k h1 ih1 => exact (eraseP_spec key pr k ih1).1
  | eraseSet h1 h2 ih1 ih2 => exact (diff_spec key pr _ _ ih1 ih2).1
  | retainSet h1 h2 ih1 ih2 => exact (inter_spec key pr _ _ ih1 ih2).1
  | symSet h1 h2 ih1 ih2 => exact (sym_spec key pr _ _ ih1 ih2).1
  | @eraseRange u a b h1 hab hbs ih1 =>
    obtain ⟨hvh, heh⟩ := headT_spec key pr u a ih1 (hab.trans hbs)
    obtain ⟨hvt, het⟩ := tailT_spec key pr u b ih1 hbs
    refine (join_spec key pr _ _ hvh hvt ?_).1
    intro x hx y hy
    rw [heh] at hx
    rw [het] at hy
    have hp := bst_pairwise key ih1.1
    have hsplit := List.take_append_drop b (elems u)
    rw [← hsplit] at hp
    have hcross := (List.pairwise_append.1 hp).2.2
    have hxtake : x ∈ List.take b (elems u) := by
      have h2 : List.take a (elems u) =
          List.take a (List.take b (elems u)) := by
        rw [List.take_take, min_eq_left hab]
      rw [h2] at hx
      exact List.take_subset _ _ hx
    exact hcross x hxtake y hy
  | retainRange a b h1 hab hbs ih1 =>
    obtain ⟨hvh, heh⟩ := headT_spec key pr _ b ih1 hbs
    refine (tailT_spec key pr _ a hvh ?_).1
    rw [size_eq_length, heh, List.length_take, ← size_eq_length]
    omega

theorem set_union_self (t : Tree β) : set_union key pr t t = t := by
  cases t <;> simp [set_union]

theorem set_inter_self (rk : β → β → Ranking) (t : Tree β) :
    set_intersection key pr rk t t = t := by
  cases t <;> simp [set_intersection]

theorem set_diff_self (rk : β → β → Ranking) (t : Tree β) :
    set_difference key pr rk t t = Tree.nil := by
  cases t <;> simp [set_difference]

theorem set_sym_self (t : Tree β) : set_symmetric key pr t t = Tree.nil := by
  cases t <;> simp [set_symmetric]

theorem size_eq_card {t : Tree β} (hb : BST key t) :
    size t = (elems t).toFinset.card := by
  rw [size_eq_length, List.toFinset_card_of_nodup (elems_nodup key hb)]

theorem keysOf_id (t : Tree α) : keysOf id t = elems t := by
  simp [keysOf]

theorem union_mem_id {a b : Tree α} (hva : Valid id pr a)
    (hvb : Valid id pr b) :
    ∀ x, x ∈ elems (set_union id pr a b) ↔ x ∈ elems a ∨ x ∈ elems b := by
  intro x
  rw [(union_spec id pr a b hva hvb).2 x, keysOf_id]
  constructor
  · rintro (h | ⟨h, _⟩)
    · exact Or.inl h
    · exact Or.inr h
  · rintro (h | h)
    · exact Or.inl h
    · by_cases h2 : x ∈ elems a
      · exact Or.inl h2
      · exact Or.inr ⟨h, h2⟩

theorem inter_mem_id {a b : Tree α} (hva : Valid id pr a)
    (hvb : Valid id pr b) :
    ∀ x, x ∈ elems (set_intersection id pr (rank id pr) a b) ↔
      x ∈ elems a ∧ x ∈ elems b := by
  intro x
  rw [(inter_spec id pr a b hva hvb).2 x, keysOf_id]
  exact Iff.rfl

theorem diff_mem_id {a b : Tree α} (hva : Valid id pr a)
    (hvb : Valid id pr b) :
    ∀ x, x ∈ elems (set_difference id pr (rank id pr) a b) ↔
      x ∈ elems a ∧ x ∉ elems b := by
  intro x
  rw [(diff_spec id pr a b hva hvb).2 x, keysOf_id]
  exact Iff.rfl

theorem sym_mem_id {a b : Tree α} (hva : Valid id pr a)
    (hvb : Valid id pr b) :
    ∀ x, x ∈ elems (set_symmetric id pr a b) ↔
      (x ∈ elems a ∧ x ∉ elems b) ∨ (x ∈ elems b ∧ x ∉ elems a) := by
  intro x
  rw [(sym_spec id pr a b hva hvb).2 x, keysOf_id, keysOf_id]
  exact Iff.rfl

theorem buildT_mem_id (l : List α) :
    ∀ x, x ∈ elems (buildT id pr l) ↔ x ∈ l := by
  intro x
  have h := buildT_keys id pr l x
  rw [keysOf_id] at h
  simpa using h

/-- A set container handle (set.h, lines 1137-1896): a shared pointer to
a provider, identified here by a number, and one owned reference to the
root node.  The functors of the provider are the comparator (the
LinearOrder), the equality predicate (propositional equality) and the
priority function pr derived from the hasher. -/
structure SetC (α : Type) where
  provider : Nat
  root : Tree α

/-- Translation of set::operator== (set.h, lines 1852-1855): pointer
comparison of the root nodes, which under interning is structural
equality. -/
def SetC.eqOp (a b : SetC α) : Bool :=
  decide (a.root = b.root)

/-- Translation of set::empty (set.h, line 1826). -/
def SetC.emptyB (s : SetC α) : Bool :=
  decide (s.root = Tree.nil)

/-- Translation of set::size (set.h, line 1833). -/
def SetC.sizeC (s : SetC α) : Nat :=
  size s.root

/-- Translation of set::clear (set.h, lines 1423-1426): the root
reference is released. -/
def SetC.clearC (s : SetC α) : SetC α :=
  ⟨s.provider, Tree.nil⟩

/-- Translation of set::insert(value) (set.h, lines 1253-1255), through
internal::insert and internal::add (set.h, lines 620-625 and 657-662):
union with a fresh singleton node, returning the size increase. -/
def SetC.insertV (s : SetC α) (v : α) : SetC α × Nat :=
  let n2 := set_union id pr s.root (Tree.node v Tree.nil Tree.nil)
  (⟨s.provider, n2⟩, size n2 - size s.root)

/-- Translation of set::insert(first, last) (set.h, lines 1269-1272):
union with the bulk-built tree of the range, returning the size
increase. -/
def SetC.insertRange (s : SetC α) (l : List α) : SetC α × Nat :=
  let n2 := set_union id pr s.root (buildT id pr l)
  (⟨s.provider, n2⟩, size n2 - size s.root)

/-- Translation of set::insert(const set&) (set.h, lines 1305-1308). -/
def SetC.insertSet (s o : SetC α) : SetC α × Nat :=
  let n2 := set_union id pr s.root o.root
  (⟨s.provider, n2⟩, size n2 - size s.root)

/-- Translation of set::erase(key) (set.h, lines 1320-1322), through
internal::erase (set.h, lines 680-705): the rebuilt root and the size
decrease. -/
def SetC.eraseK (s : SetC α) (k : α) : SetC α × Nat :=
  let n2 := (eraseP id pr s.root k).1
  (⟨s.provider, n2⟩, size s.root - size n2)

/-- Translation of set::operator| (set.h, lines 1505-1508): the result
set uses the provider of the left operand. -/
def SetC.unionOp (a b : SetC α) : SetC α :=
  ⟨a.provider, set_union id pr a.root b.root⟩

/-- Translation of set::operator& (set.h, lines 1548-1552). -/
def SetC.interOp (a b : SetC α) : SetC α :=
  ⟨a.provider, set_intersection id pr (rank id pr) a.root b.root⟩

/-- Translation of set::operator- (set.h, lines 1595-1599). -/
def SetC.diffOp (a b : SetC α) : SetC α :=
  ⟨a.provider, set_difference id pr (rank id pr) a.root b.root⟩

/-- Translation of set::operator^ (set.h, lines 1642-1645). -/
def SetC.symOp (a b : SetC α) : SetC α :=
  ⟨a.provider, set_symmetric id pr a.root b.root⟩

/-- Translation of set::includes (set.h, lines 1808-1812). -/
def SetC.includesOp (a b : SetC α) : Bool :=
  includesT id (rank id pr) a.root b.root

/-- The cached structural hash of a set node (set.h, lines 779-789):
hash_combine(hash(left), hash(right), priority), with hash(null) = 0 as
in internal::hash (set.h, lines 284-292). -/
def nodeHash : Tree α → Nat
  | .nil => 0
  | .node v l r => hash_combine3 (nodeHash l) (nodeHash r) (pr v)

/-- Translation of set::hash (set.h, line 1840): the cached hash of the
root, or 0 for an empty set. -/
def SetC.hashC (s : SetC α) : Nat :=
  nodeHash pr s.root

/-- Modelled from the spec (claim C9 wording): the combine formula
combine(h1, h2) = h1 XOR (h2 + 0x9e3779b9 + (h1 shifted left 6) +
(h1 shifted right 2)) computed in machine-word arithmetic mod 2 to the
word size, with the shifts written out as multiplication and division. -/
def specHashCombine (h1 h2 : Nat) : Nat :=
  h1 ^^^ ((h2 + 0x9e3779b9 + h1 * 2 ^ 6 + h1 / 2 ^ 2) % 2 ^ 64)

/-- Translation of set::operator=(const set&) (set.h, lines 1450-1455):
clear, then adopt both the provider and the root of the other set.  No
provider check is performed. -/
def SetC.copyAssign (a b : SetC α) : SetC α :=
  ⟨b.provider, b.root⟩

/-- Translation of set::swap and the free function swap (set.h, lines
1433-1436 and 1907-1910): both the provider pointers and the root
pointers are exchanged.  No provider check is performed. -/
def SetC.swapC (a b : SetC α) : SetC α × SetC α :=
  (⟨b.provider, b.root⟩, ⟨a.provider, a.root⟩)

/-- A map container handle (map.h, lines 408-1437): a shared pointer to
the map provider, which links a set provider owning the key nodes, and
one owned reference to the root map node. -/
structure MapC (α γ : Type) where
  provider : Nat
  setProvider : Nat
  root : Tree (α × γ)

/-- The key node co-created with every map node: make_node for maps
(map.h, lines 52-74) builds, for a map node holding (k, v) with children
l and r, the set node holding k whose children are the key nodes of l
and r.  Map nodes are created only through make_node, so the stored
key_node_ field always equals this projection (invariant I5). -/
def keyNodeOf : Tree (α × γ) → Tree α
  | .nil => .nil
  | .node v l r => .node v.1 (keyNodeOf l) (keyNodeOf r)

/-- Translation of map::key_set (map.h, lines 1328-1331): a set under
the linked set provider whose root is the key node of the map root (null
for an empty map). -/
def MapC.key_set (m : MapC α γ) : SetC α :=
  ⟨m.setProvider, keyNodeOf m.root⟩

/-- Outcome of map::at (map.h, lines 1246-1254): either the mapped value
of the element with the searched key, or the KeyNotFound failure (the
source throws std::out_of_range). -/
inductive AtResult (γ : Type) where
  | found : γ → AtResult γ
  | keyNotFound : AtResult γ
deriving DecidableEq

/-- Translation of map::at (map.h, lines 1246-1254): lower_bound with
the key comparator, then the key equality test; absent keys yield
KeyNotFound and the map is not modified (the function is pure). -/
def MapC.atK (m : MapC α γ) (k : α) : AtResult γ :=
  match lowerB (fun p => decide (p.1 < k)) m.root with
  | none => .keyNotFound
  | some b => if b.1 = k then .found b.2 else .keyNotFound

/-- Translation of map::insert_or_assign(value) (map.h, lines 603-605),
through internal::insert_or_assign and insert_or_assign_n (map.h, lines
151-165): union with the fresh node as the LEFT argument, so the new
mapped value replaces an existing mapping; returns whether the new root
differs from the old root. -/
def MapC.insertOrAssign [DecidableEq γ] (m : MapC α γ) (kv : α × γ) :
    MapC α γ × Bool :=
  let r := set_union Prod.fst pr (Tree.node kv Tree.nil Tree.nil) m.root
  (⟨m.provider, m.setProvider, r⟩, decide (r ≠ m.root))

theorem keyNodeOf_elems {γ : Type} :
    ∀ t : Tree (α × γ), elems (keyNodeOf t) = (elems t).map Prod.fst := by
  intro t
  induction t with
  | nil => rfl
  | node v l r ihl ihr => simp [keyNodeOf, ihl, ihr]

theorem valid_single (v : β) :
    Valid key pr (Tree.node v Tree.nil Tree.nil) := by
  rw [valid_node_iff]
  simp

theorem union_comm_id {a b : Tree α} (hva : Valid id pr a)
    (hvb : Valid id pr b) :
    set_union id pr a b = set_union id pr b a :=
  valid_ext id pr _ _ (union_spec id pr a b hva hvb).1
    (union_spec id pr b a hvb hva).1
    fun x => by rw [union_mem_id pr hva hvb x, union_mem_id pr hvb hva x]
                tauto

theorem union_assoc_id {a b c : Tree α} (hva : Valid id pr a)
    (hvb : Valid id pr b) (hvc : Valid id pr c) :
    set_union id pr (set_union id pr a b) c =
      set_union id pr a (set_union id pr b c) := by
  have hvab := (union_spec id pr a b hva hvb).1
  have hvbc := (union_spec id pr b c hvb hvc).1
  refine valid_ext id pr _ _ (union_spec id pr _ c hvab hvc).1
    (union_spec id pr a _ hva hvbc).1 fun x => ?_
  rw [union_mem_id pr hvab hvc x, union_mem_id pr hva hvb x,
    union_mem_id pr hva hvbc x, union_mem_id pr hvb hvc x]
  tauto

theorem inter_comm_id {a b : Tree α} (hva : Valid id pr a)
    (hvb : Valid id pr b) :
    set_intersection id pr (rank id pr) a b =
      set_intersection id pr (rank id pr) b a :=
  valid_ext id pr _ _ (inter_spec id pr a b hva hvb).1
    (inter_spec id pr b a hvb hva).1
    fun x => by rw [inter_mem_id pr hva hvb x, inter_mem_id pr hvb hva x]
                tauto

theorem inter_assoc_id {a b c : Tree α} (hva : Valid id pr a)
    (hvb : Valid id pr b) (hvc : Valid id pr c) :
    set_intersection id pr (rank id pr)
        (set_intersection id pr (rank id pr) a b) c =
      set_intersection id pr (rank id pr) a
        (set_intersection id pr (rank id pr) b c) := by
  have hvab := (inter_spec id pr a b hva hvb).1
  have hvbc := (inter_spec id pr b c hvb hvc).1
  refine valid_ext id pr _ _ (inter_spec id pr _ c hvab hvc).1
    (inter_spec id pr a _ hva hvbc).1 fun x => ?_
  rw [inter_mem_id pr hvab hvc x, inter_mem_id pr hva hvb x,
    inter_mem_id pr hva hvbc x, inter_mem_id pr hvb hvc x]
  tauto

theorem sym_comm_id {a b : Tree α} (hva : Valid id pr a)
    (hvb : Valid id pr b) :
    set_symmetric id pr a b = set_symmetric id pr b a :=
  valid_ext id pr _ _ (sym_spec id pr a b hva hvb).1
    (sym_spec id pr b a hvb hva).1
    fun x => by rw [sym_mem_id pr hva hvb x, sym_mem_id pr hvb hva x]
                tauto

theorem sym_assoc_id {a b c : Tree α} (hva : Valid id pr a)
    (hvb : Valid id pr b) (hvc : Valid id pr c) :
    set_symmetric id pr (set_symmetric id pr a b) c =
      set_symmetric id pr a (set_symmetric id pr b c) := by
  have hvab := (sym_spec id pr a b hva hvb).1
  have hvbc := (sym_spec id pr b c hvb hvc).1
  refine valid_ext id pr _ _ (sym_spec id pr _ c hvab hvc).1
    (sym_spec id pr a _ hva hvbc).1 fun x => ?_
  rw [sym_mem_id pr hvab hvc x, sym_mem_id pr hva hvb x,
    sym_mem_id pr hva hvbc x, sym_mem_id pr hvb hvc x]
  tauto

theorem inter_union_distrib_id {a b c : Tree α} (hva : Valid id pr a)
    (hvb : Valid id pr b) (hvc : Valid id pr c) :
    set_intersection id pr (rank id pr) a (set_union id pr b c) =
      set_union id pr (set_intersection id pr (rank id pr) a b)
        (set_intersection id pr (rank id pr) a c) := by
  have hvbc := (union_spec id pr b c hvb hvc).1
  have hvab := (inter_spec id pr a b hva hvb).1
  have hvac := (inter_spec id pr a c hva hvc).1
  refine valid_ext id pr _ _ (inter_spec id pr a _ hva hvbc).1
    (union_spec id pr _ _ hvab hvac).1 fun x => ?_
  rw [inter_mem_id pr hva hvbc x, union_mem_id pr hvb hvc x,
    union_mem_id pr hvab hvac x, inter_mem_id pr hva hvb x,
    inter_mem_id pr hva hvc x]
  tauto

theorem diff_union_demorgan_id {a b c : Tree α} (hva : Valid id pr a)
    (hvb : Valid id pr b) (hvc : Valid id pr c) :
    set_difference id pr (rank id pr) a (set_union id pr b c) =
      set_intersection id pr (rank id pr)
        (set_difference id pr (rank id pr) a b)
        (set_difference id pr (rank id pr) a c) := by
  have hvbc := (union_spec id pr b c hvb hvc).1
  have hvab := (diff_spec id pr a b hva hvb).1
  have hvac := (diff_spec id pr a c hva hvc).1
  refine valid_ext id pr _ _ (diff_spec id pr a _ hva hvbc).1
    (inter_spec id pr _ _ hvab hvac).1 fun x => ?_
  rw [diff_mem_id pr hva hvbc x, union_mem_id pr hvb hvc x,
    inter_mem_id pr hvab hvac x, diff_mem_id pr hva hvb x,
    diff_mem_id pr hva hvc x]
  tauto

theorem includes_size_lt {a b : Tree β} (rk : β → β → Ranking)
    (h : size a < size b) : includesT key rk a b = false := by
  cases b with
  | nil => simp at h
  | node rv rl rr =>
    cases a with
    | nil => simp [includesT]
    | node lv ll lr =>
      have hne : Tree.node lv ll lr ≠ Tree.node rv rl rr := by
        intro he
        rw [he] at h
        omega
      rw [includesT, if_neg hne, if_pos h]

theorem card_union_sub (A B : Finset α) :
    (A ∪ B).card - A.card = (B \ A).card := by
  have h := Finset.card_sdiff_add_card B A
  rw [Finset.union_comm B A] at h
  omega

theorem union_size_id {a b : Tree α} (hva : Valid id pr a)
    (hvb : Valid id pr b) :
    size (set_union id pr a b) =
      ((elems a).toFinset ∪ (elems b).toFinset).card := by
  have hvu := (union_spec id pr a b hva hvb).1
  rw [size_eq_card id hvu.1]
  congr 1
  ext x
  simp only [List.mem_toFinset, Finset.mem_union]
  exact union_mem_id pr hva hvb x

/-- C8: map::key_set returns the set, under the linked set provider,
whose root is the key node of the map root; its traversal is exactly the
first projection of the traversal of the map, key for key in the same
order, and the key nodes are the ones already co-created with the map
nodes. -/
theorem confluent_c8_key_set {α γ : Type} [LinearOrder α] (m : MapC α γ) :
    (MapC.key_set m).root = keyNodeOf m.root ∧
    (MapC.key_set m).provider = m.setProvider ∧
    elems (MapC.key_set m).root = (elems m.root).map Prod.fst :=
  ⟨rfl, rfl, keyNodeOf_elems m.root⟩

theorem hash_combine_eq_spec (h1 h2 : Nat) :
    hash_combine h1 h2 = specHashCombine h1 h2 := by
  unfold hash_combine specHashCombine W
  rw [Nat.shiftLeft_eq, Nat.shiftRight_eq_div_pow]

/-- C9: set::hash returns 0 on an empty set and otherwise the cached
structural hash of the root, where the hash of every node is
combine(hash(left), hash(right), priority) with the combine function of
the specification, computed in machine-word arithmetic, extended to
three arguments by left association, and hash(null) = 0. -/
theorem confluent_c9_structural_hash {α : Type} [LinearOrder α]
    (pr : α → Nat) (s : SetC α) :
    (SetC.hashC pr s = if s.root = Tree.nil then 0 else nodeHash pr s.root) ∧
    (∀ (v : α) (l r : Tree α),
      nodeHash pr (Tree.node v l r) =
        specHashCombine (specHashCombine (nodeHash pr l) (nodeHash pr r))
          (pr v)) ∧
    nodeHash pr (Tree.nil : Tree α) = 0 ∧
    (∀ h1 h2 h3 : Nat,
      hash_combine3 h1 h2 h3 = hash_combine (hash_combine h1 h2) h3) := by
  refine ⟨?_, ?_, rfl, fun h1 h2 h3 => rfl⟩
  · rcases s with ⟨p, t⟩
    cases t <;> simp [SetC.hashC, nodeHash]
  · intro v l r
    rw [← hash_combine_eq_spec, ← hash_combine_eq_spec]
    rfl

/-- C10: copy assignment and swap have no same-provider precondition:
they are defined for every pair of sets; assignment adopts both the root
and the provider of the right-hand set (so the two sets then compare
equal), and swap exchanges both the roots and the providers. -/
theorem confluent_c10_assign_swap {α : Type} [LinearOrder α]
    (a b : SetC α) :
    (SetC.copyAssign a b).provider = b.provider ∧
    (SetC.copyAssign a b).root = b.root ∧
    SetC.eqOp (SetC.copyAssign a b) b = true ∧
    (SetC.swapC a b).1.provider = b.provider ∧
    (SetC.swapC a b).1.root = b.root ∧
    (SetC.swapC a b).2.provider = a.provider ∧
    (SetC.swapC a b).2.root = a.root := by
  refine ⟨rfl, rfl, ?_, rfl, rfl, rfl, rfl⟩
  simp [SetC.eqOp, SetC.copyAssign]

/-- C1: two sets built through the public operations under one provider
hold the same multiset of elements iff their root pointers are
identical, and operator==, which compares root pointers, returns true
exactly on equal content.  Together with the pure pointer comparison in
SetC.eqOp this is the constant-time equality of the specification. -/
theorem confluent_c1_canonical_form {α : Type} [LinearOrder α]
    (pr : α → Nat) (a b : SetC α) (hp : a.provider = b.provider)
    (ha : Built id pr a.root) (hb : Built id pr b.root) :
    (((elems a.root : Multiset α) = (elems b.root : Multiset α)) ↔
      a.root = b.root) ∧
    (SetC.eqOp a b = true ↔
      ((elems a.root : Multiset α) = (elems b.root : Multiset α))) := by
  have hva := built_valid id pr ha
  have hvb := built_valid id pr hb
  have hmain : ((elems a.root : Multiset α) = (elems b.root : Multiset α)) ↔
      a.root = b.root := by
    constructor
    · intro h
      refine valid_ext id pr _ _ hva hvb fun x => ?_
      exact (Multiset.coe_eq_coe.1 h).mem_iff
    · intro h
      rw [h]
  refine ⟨hmain, ?_⟩
  rw [hmain]
  exact decide_eq_true_iff

/-- C2: the merge laws on sets under one provider, with container
equality decided by operator== on the interned roots: idempotence of the
four merges, commutativity and associativity of union, intersection and
symmetric difference, distributivity of intersection over union, and the
De Morgan law for difference over union. -/
theorem confluent_c2_merge_laws {α : Type} [LinearOrder α]
    (pr : α → Nat) (a b c : SetC α)
    (hab : a.provider = b.provider) (hac : a.provider = c.provider)
    (ha : Built id pr a.root) (hb : Built id pr b.root)
    (hc : Built id pr c.root) :
    SetC.eqOp (SetC.unionOp pr a a) a = true ∧
    SetC.eqOp (SetC.interOp pr a a) a = true ∧
    SetC.emptyB (SetC.diffOp pr a a) = true ∧
    SetC.emptyB (SetC.symOp pr a a) = true ∧
    SetC.eqOp (SetC.unionOp pr a b) (SetC.unionOp pr b a) = true ∧
    SetC.eqOp (SetC.interOp pr a b) (SetC.interOp pr b a) = true ∧
    SetC.eqOp (SetC.symOp pr a b) (SetC.symOp pr b a) = true ∧
    SetC.eqOp (SetC.unionOp pr (SetC.unionOp pr a b) c)
      (SetC.unionOp pr a (SetC.unionOp pr b c)) = true ∧
    SetC.eqOp (SetC.interOp pr (SetC.interOp pr a b) c)
      (SetC.interOp pr a (SetC.interOp pr b c)) = true ∧
    SetC.eqOp (SetC.symOp pr (SetC.symOp pr a b) c)
      (SetC.symOp pr a (SetC.symOp pr b c)) = true ∧
    SetC.eqOp (SetC.interOp pr a (SetC.unionOp pr b c))
      (SetC.unionOp pr (SetC.interOp pr a b) (SetC.interOp pr a c)) =
      true ∧
    SetC.eqOp (SetC.diffOp pr a (SetC.unionOp pr b c))
      (SetC.interOp pr (SetC.diffOp pr a b) (SetC.diffOp pr a c)) =
      true := by
  have hva := built_valid id pr ha
  have hvb := built_valid id pr hb
  have hvc := built_valid id pr hc
  simp only [SetC.eqOp, SetC.emptyB, SetC.unionOp, SetC.interOp,
    SetC.diffOp, SetC.symOp, decide_eq_true_eq]
  refine ⟨set_union_self id pr a.root, set_inter_self id pr _ a.root,
    set_diff_self id pr _ a.root, set_sym_self id pr a.root,
    union_comm_id pr hva hvb, inter_comm_id pr hva hvb,
    sym_comm_id pr hva hvb, union_assoc_id pr hva hvb hvc,
    inter_assoc_id pr hva hvb hvc, sym_assoc_id pr hva hvb hvc,
    inter_union_distrib_id pr hva hvb hvc,
    diff_union_demorgan_id pr hva hvb hvc⟩

/-- C3: includes agrees with emptiness of the reverse difference and
with element containment, and returns false immediately when the left
tree is smaller than the right tree. -/
theorem confluent_c3_includes_subset {α : Type} [LinearOrder α]
    (pr : α → Nat) (a b : SetC α) (hp : a.provider = b.provider)
    (ha : Built id pr a.root) (hb : Built id pr b.root) :
    (SetC.includesOp pr a b = true ↔
      SetC.sizeC (SetC.diffOp pr b a) = 0) ∧
    (SetC.includesOp pr a b = true ↔
      ∀ x ∈ elems b.root, x ∈ elems a.root) ∧
    (SetC.sizeC a < SetC.sizeC b → SetC.includesOp pr a b = false) := by
  have hva := built_valid id pr ha
  have hvb := built_valid id pr hb
  have hsubset : SetC.includesOp pr a b = true ↔
      ∀ x ∈ elems b.root, x ∈ elems a.root := by
    rw [SetC.includesOp, includes_spec id pr a.root b.root hva hvb]
    rw [keysOf_id, keysOf_id]
  refine ⟨?_, hsubset, fun h => includes_size_lt id _ h⟩
  rw [hsubset, SetC.sizeC, SetC.diffOp]
  rw [size_eq_length, List.length_eq_zero, List.eq_nil_iff_forall_not_mem]
  constructor
  · intro h x
    rw [diff_mem_id pr hvb hva x]
    rintro ⟨hxb, hxa⟩
    exact hxa (h x hxb)
  · intro h x hxb
    have h2 := h x
    rw [diff_mem_id pr hvb hva x] at h2
    by_contra hxa
    exact h2 ⟨hxb, hxa⟩

/-- C4: after every modeled public operation the resulting tree
satisfies invariant I1 (the in-order keys are strictly ascending in the
provider compare order) and invariant I2 (every node has priority at
most the priority of each child, ties broken by the key comparator, so
priority and key jointly determine the root by canonicity). -/
theorem confluent_c4_treap_invariants {α β : Type} [LinearOrder α]
    [DecidableEq β] (key : β → α) (pr : α → Nat) (t : Tree β)
    (h : Built key pr t) :
    List.Pairwise (· < ·) (keysOf key t) ∧ I2 key pr t := by
  have hv := built_valid key pr h
  exact ⟨keys_pairwise key hv.1, I2_of_valid key pr hv⟩

/-- C5: map::at returns the mapped value of the element whose key equals
the searched key when one is present, and the KeyNotFound failure value,
distinct from every present result, when no such element exists; the
operation is a pure function of the map, which is left unchanged. -/
theorem confluent_c5_map_at {α γ : Type} [LinearOrder α] [DecidableEq γ]
    (pr : α → Nat) (m : MapC α γ) (k : α)
    (h : Built Prod.fst pr m.root) :
    (∀ v : γ, (k, v) ∈ elems m.root → MapC.atK m k = AtResult.found v) ∧
    ((∀ v : γ, (k, v) ∉ elems m.root) →
      MapC.atK m k = AtResult.keyNotFound) ∧
    (∀ v : γ, AtResult.found v ≠ (AtResult.keyNotFound : AtResult γ)) := by
  have hv := built_valid Prod.fst pr h
  refine ⟨?_, ?_, fun v => by simp⟩
  · intro v hmem
    have hlb := lowerB_found Prod.fst hv.1 hmem rfl
    rw [MapC.atK, hlb]
    simp
  · intro hnone
    rcases hlb : lowerB (fun p => decide (p.1 < k)) m.root with _ | b
    · rw [MapC.atK, hlb]
    · have hbm := lowerB_mem hlb
      rw [MapC.atK, hlb]
      have hbk : b.1 ≠ k := by
        intro he
        have hbeq : b = (k, b.2) := by
          rw [← he]
        exact absurd hbm (hbeq ▸ hnone b.2)
      simp [hbk]

/-- C6: insert(value) returns 1 and adds the value when it was absent,
else returns 0 and leaves the set unchanged; erase(key) returns 1 and
removes the matching element when present, else returns 0 and leaves
the set unchanged; insert of a range or of another container returns
the number of elements actually added; clear leaves the set empty. -/
theorem confluent_c6_element_ops {α : Type} [LinearOrder α]
    (pr : α → Nat) (s o : SetC α) (v k : α) (l : List α)
    (hp : s.provider = o.provider)
    (hs : Built id pr s.root) (ho : Built id pr o.root) :
    (v ∈ elems s.root → SetC.insertV pr s v = (s, 0)) ∧
    (v ∉ elems s.root →
      (SetC.insertV pr s v).2 = 1 ∧
      (∀ x, x ∈ elems (SetC.insertV pr s v).1.root ↔
        x ∈ elems s.root ∨ x = v)) ∧
    (k ∈ elems s.root →
      (SetC.eraseK pr s k).2 = 1 ∧
      (∀ x, x ∈ elems (SetC.eraseK pr s k).1.root ↔
        x ∈ elems s.root ∧ x ≠ k)) ∧
    (k ∉ elems s.root → SetC.eraseK pr s k = (s, 0)) ∧
    ((SetC.insertRange pr s l).2 =
      (l.toFinset \ (elems s.root).toFinset).card) ∧
    (∀ x, x ∈ elems (SetC.insertRange pr s l).1.root ↔
      x ∈ elems s.root ∨ x ∈ l) ∧
    ((SetC.insertSet pr s o).2 =
      ((elems o.root).toFinset \ (elems s.root).toFinset).card) ∧
    SetC.clearC s = ⟨s.provider, Tree.nil⟩ := by
  have hvs := built_valid id pr hs
  have hvo := built_valid id pr ho
  have hvsing := valid_single id pr v
  have hsing : elems (Tree.node v Tree.nil Tree.nil) = [v] := rfl
  have hvb := buildT_valid id pr l
  have hbt : (elems (buildT id pr l)).toFinset = l.toFinset := by
    ext x
    rw [List.mem_toFinset, List.mem_toFinset]
    exact buildT_mem_id pr l x
  refine ⟨?_, ?_, ?_, ?_, ?_, ?_, ?_, rfl⟩
  · intro hvmem
    have hroot : set_union id pr s.root (Tree.node v Tree.nil Tree.nil) =
        s.root := by
      refine valid_ext id pr _ _ (union_spec id pr _ _ hvs hvsing).1 hvs
        fun x => ?_
      rw [union_mem_id pr hvs hvsing x, hsing]
      constructor
      · rintro (h | h)
        · exact h
        · rw [List.mem_singleton] at h
          exact h ▸ hvmem
      · exact Or.inl
    obtain ⟨sp, sr⟩ := s
    simp only [SetC.insertV] at hroot ⊢
    rw [hroot, Nat.sub_self]
  · intro hvmem
    have hnotin : v ∉ (elems s.root).toFinset := by
      rw [List.mem_toFinset]
      exact hvmem
    have hcard : size (set_union id pr s.root
        (Tree.node v Tree.nil Tree.nil)) =
        (elems s.root).toFinset.card + 1 := by
      rw [union_size_id pr hvs hvsing]
      have h1 : (elems (Tree.node v Tree.nil Tree.nil)).toFinset =
          {v} := rfl
      rw [h1, Finset.union_comm, ← Finset.insert_eq,
        Finset.card_insert_of_not_mem hnotin]
    constructor
    · simp only [SetC.insertV]
      rw [hcard, size_eq_card id hvs.1]
      omega
    · intro x
      simp only [SetC.insertV]
      rw [union_mem_id pr hvs hvsing x, hsing, List.mem_singleton]
  · intro hkmem
    obtain ⟨hve, hme⟩ := eraseP_spec id pr k hvs
    have hkfin : k ∈ (elems s.root).toFinset := List.mem_toFinset.2 hkmem
    have hcard : size (eraseP id pr s.root k).1 =
        ((elems s.root).toFinset.erase k).card := by
      rw [size_eq_card id hve.1]
      congr 1
      ext x
      rw [List.mem_toFinset, Finset.mem_erase, List.mem_toFinset, hme x]
      simp [id_eq, and_comm]
    have hpos : 0 < (elems s.root).toFinset.card :=
      Finset.card_pos.2 ⟨k, hkfin⟩
    constructor
    · simp only [SetC.eraseK]
      rw [hcard, size_eq_card id hvs.1, Finset.card_erase_of_mem hkfin]
      omega
    · intro x
      simp only [SetC.eraseK]
      rw [hme x]
      simp [id_eq]
  · intro hkmem
    obtain ⟨hve, hme⟩ := eraseP_spec id pr k hvs
    have hroot : (eraseP id pr s.root k).1 = s.root := by
      refine valid_ext id pr _ _ hve hvs fun x => ?_
      rw [hme x]
      constructor
      · exact fun h => h.1
      · intro h
        refine ⟨h, fun e => hkmem ?_⟩
        simpa [id_eq] using e ▸ h
    obtain ⟨sp, sr⟩ := s
    simp only [SetC.eraseK] at hroot ⊢
    rw [hroot, Nat.sub_self]
  · simp only [SetC.insertRange]
    rw [union_size_id pr hvs hvb, hbt, size_eq_card id hvs.1,
      card_union_sub]
  · intro x
    simp only [SetC.insertRange]
    rw [union_mem_id pr hvs hvb x, buildT_mem_id pr l x]
  · simp only [SetC.insertSet]
    rw [union_size_id pr hvs hvo, size_eq_card id hvs.1, card_union_sub]

/-- C7: map::insert_or_assign makes the map contain the given pair,
replacing any element with an equal key, and returns true exactly when
the map changed, hence false iff the exact pair (equal key and equal
mapped value) was already contained. -/
theorem confluent_c7_insert_or_assign {α γ : Type} [LinearOrder α]
    [DecidableEq γ] (pr : α → Nat) (m : MapC α γ) (k : α) (v : γ)
    (h : Built Prod.fst pr m.root) :
    ((MapC.insertOrAssign pr m (k, v)).2 = false ↔
      (k, v) ∈ elems m.root) ∧
    (∀ x, x ∈ elems (MapC.insertOrAssign pr m (k, v)).1.root ↔
      x = (k, v) ∨ (x ∈ elems m.root ∧ x.1 ≠ k)) := by
  have hv := built_valid Prod.fst pr h
  have hvsing := valid_single Prod.fst pr ((k, v) : α × γ)
  obtain ⟨hvu, hmu⟩ := union_spec Prod.fst pr
    (Tree.node (k, v) Tree.nil Tree.nil) m.root hvsing hv
  have hmem : ∀ x, x ∈ elems (set_union Prod.fst pr
      (Tree.node (k, v) Tree.nil Tree.nil) m.root) ↔
      x = (k, v) ∨ (x ∈ elems m.root ∧ x.1 ≠ k) := by
    intro x
    rw [hmu x]
    have h1 : elems (Tree.node (k, v) Tree.nil Tree.nil) = [(k, v)] := rfl
    have h2 : keysOf Prod.fst
        (Tree.node ((k, v) : α × γ) Tree.nil Tree.nil) = [k] := rfl
    rw [h1, h2, List.mem_singleton, List.mem_singleton]
  constructor
  · simp only [MapC.insertOrAssign, decide_eq_false_iff_not, not_not]
    constructor
    · intro he
      have := (hmem (k, v)).2 (Or.inl rfl)
      rw [he] at this
      exact this
    · intro hkv
      refine valid_ext Prod.fst pr _ _ hvu hv fun x => ?_
      rw [hmem x]
      constructor
      · rintro (rfl | ⟨h1, _⟩)
        · exact hkv
        · exact h1
      · intro hx
        by_cases hxk : x.1 = k
        · refine Or.inl (bst_key_inj Prod.fst hv.1 x hx (k, v) hkv hxk)
        · exact Or.inr ⟨hx, hxk⟩
  · intro x
    simp only [MapC.insertOrAssign]
    exact hmem x

theorem confluent_c1_canonical_form_witness :
    Built id id (buildT id id ([1, 2] : List Nat)) ∧
    (((elems (buildT id id ([1, 2] : List Nat)) : Multiset Nat) =
        (elems (buildT id id ([2, 1] : List Nat)) : Multiset Nat)) ↔
      buildT id id ([1, 2] : List Nat) = buildT id id ([2, 1] : List Nat)) :=
  ⟨Built.ofList _,
    (confluent_c1_canonical_form id
      ⟨0, buildT id id [1, 2]⟩ ⟨0, buildT id id [2, 1]⟩ rfl
      (Built.ofList _) (Built.ofList _)).1⟩

theorem confluent_c2_merge_laws_witness :
    Built id id (buildT id id ([1] : List Nat)) ∧
    SetC.eqOp
      (SetC.unionOp id (⟨0, buildT id id ([1] : List Nat)⟩ : SetC Nat)
        ⟨0, buildT id id ([1] : List Nat)⟩)
      ⟨0, buildT id id ([1] : List Nat)⟩ = true :=
  ⟨Built.ofList _,
    (confluent_c2_merge_laws id ⟨0, buildT id id [1]⟩
      ⟨0, buildT id id [1]⟩ ⟨0, buildT id id [1]⟩ rfl rfl
      (Built.ofList _) (Built.ofList _) (Built.ofList _)).1⟩

theorem confluent_c3_includes_subset_witness :
    Built id id (buildT id id ([1] : List Nat)) ∧
    (SetC.includesOp id (⟨0, buildT id id ([1] : List Nat)⟩ : SetC Nat)
        ⟨0, Tree.nil⟩ = true ↔
      SetC.sizeC (SetC.diffOp id (⟨0, Tree.nil⟩ : SetC Nat)
        ⟨0, buildT id id ([1] : List Nat)⟩) = 0) :=
  ⟨Built.ofList _,
    (confluent_c3_includes_subset id ⟨0, buildT id id [1]⟩ ⟨0, Tree.nil⟩
      rfl (Built.ofList _) Built.empty).1⟩

theorem confluent_c4_treap_invariants_witness :
    Built id id (buildT id id ([2, 1, 3] : List Nat)) ∧
    (List.Pairwise (· < ·)
        (keysOf id (buildT id id ([2, 1, 3] : List Nat))) ∧
      I2 id id (buildT id id ([2, 1, 3] : List Nat))) :=
  ⟨Built.ofList _,
    confluent_c4_treap_invariants id id (buildT id id [2, 1, 3])
      (Built.ofList _)⟩

theorem confluent_c5_map_at_witness :
    ((3, 10) : Nat × Nat) ∈
      elems (buildT Prod.fst id [((3, 10) : Nat × Nat)]) ∧
    MapC.atK
      (⟨0, 0, buildT Prod.fst id [((3, 10) : Nat × Nat)]⟩ :
        MapC Nat Nat) 3 = AtResult.found 10 :=
  ⟨by decide,
    (confluent_c5_map_at id
      ⟨0, 0, buildT Prod.fst id [((3, 10) : Nat × Nat)]⟩ 3
      (Built.ofList _)).1 10 (by decide)⟩

theorem confluent_c6_element_ops_witness :
    Built id id (buildT id id ([5] : List Nat)) ∧
    (SetC.insertRange id (⟨0, buildT id id ([5] : List Nat)⟩ : SetC Nat)
        [7]).2 =
      (([7] : List Nat).toFinset \
        (elems (buildT id id ([5] : List Nat))).toFinset).card :=
  ⟨Built.ofList _,
    (confluent_c6_element_ops id ⟨0, buildT id id [5]⟩ ⟨0, Tree.nil⟩
      0 0 [7] rfl (Built.ofList _) Built.empty).2.2.2.2.1⟩

theorem confluent_c7_insert_or_assign_witness :
    Built Prod.fst id (buildT Prod.fst id [((1, 2) : Nat × Nat)]) ∧
    ((MapC.insertOrAssign id
        (⟨0, 0, buildT Prod.fst id [((1, 2) : Nat × Nat)]⟩ :
          MapC Nat Nat) (1, 2)).2 = false ↔
      ((1, 2) : Nat × Nat) ∈
        elems (buildT Prod.fst id [((1, 2) : Nat × Nat)])) :=
  ⟨Built.ofList _,
    (confluent_c7_insert_or_assign id
      ⟨0, 0, buildT Prod.fst id [((1, 2) : Nat × Nat)]⟩ 1 2
      (Built.ofList _)).1⟩

end Confluent
